import Mathlib

/-
Verification development for the ChiselStore replicated-SQL store.

The repository's visible module (src/lib.rs) is an umbrella that re-exports
the core from `server.rs`, `errors.rs`, `rpc.rs` and `util.rs`, none of which
are present under src/.  The consensus core, apply pipeline, pending request
table and dispatch layer are therefore modelled from the specification
(spec.md): each definition that stands in for missing code carries a doc
comment starting with `Modelled from the spec:`.

The consensus core is a Raft-family replica (spec §4.2).  We embed it as a
small-step transition system over the global state of a fixed cluster of `n`
nodes.  Message transport is modelled synchronously: a replication or voting
interaction reads the sender's current state directly (the spec treats the
wire transport as an external collaborator, §6).  Ghost history components
(the per-term vote registry with the voter's log snapshot, the per-term
leader registry, and the cumulative committed log with the committing term
and acknowledging quorum of each entry) record information that real nodes
overwrite or never materialise; no transition reads ghost state in a guard
that real code could not evaluate.
-/

namespace ChiselStore

/-- Modelled from the spec: §3 `StoreCommand`, the unit submitted by the
dispatch layer — a correlation id plus the exact SQL text (`server.rs` is
missing from src/). -/
structure StoreCommand where
  id : Nat
  sql : String
deriving DecidableEq

/-- Modelled from the spec: §3 `LogEntry` — a replicated command together
with the term in which the leader created it.  The index of an entry is its
position in the containing log. -/
structure LogEntry where
  term : Nat
  command : StoreCommand
deriving DecidableEq

/-- Modelled from the spec: §3 `NodeRole`, the consensus role of a node. -/
inductive NodeRole
  | Follower
  | Candidate
  | Leader
deriving DecidableEq

/-- Modelled from the spec: §4.2/§5 — the per-node consensus state: current
term, role, in-memory replicated log, commit index, and the apply pipeline's
position `lastApplied` in the log. -/
structure Node where
  currentTerm : Nat
  role : NodeRole
  log : List LogEntry
  commitIndex : Nat
  lastApplied : Nat
deriving DecidableEq

/-- Ghost record for one committed entry: the entry itself, the term of the
leader whose commit first covered it (`ctag`), and the acknowledging quorum
recorded at that commit (`cack`). -/
structure CEntry (n : Nat) where
  entry : LogEntry
  ctag : Nat
  cack : Finset (Fin n)
deriving DecidableEq

/-- Modelled from the spec: the global state of an `n`-node cluster.
`node` is the real per-node state; `votes` is the ghost history of every
granted vote (term, voter ↦ candidate and the voter's log at vote time);
`leaderOf` records which node, if any, ever won each term; `committed` is
the cumulative committed log (ghost); `applied` is the ghost sequence of
entries each node's apply pipeline has handed to the local engine adapter,
in order. -/
structure GState (n : Nat) where
  node : Fin n → Node
  votes : Nat → Fin n → Option (Fin n × List LogEntry)
  leaderOf : Nat → Option (Fin n)
  committed : List (CEntry n)
  applied : Fin n → List LogEntry

/-- A strict majority of the `n` cluster nodes (spec: "strict majority of
nodes"). -/
def IsMajority {n : Nat} (S : Finset (Fin n)) : Prop :=
  n < 2 * S.card

instance {n : Nat} (S : Finset (Fin n)) : Decidable (IsMajority S) := by
  unfold IsMajority; infer_instance

/-- Term of the last entry of a log, `0` for the empty log. -/
def lastTerm (l : List LogEntry) : Nat :=
  (l.getLast?.map LogEntry.term).getD 0

/-- Modelled from the spec: the standard Raft voting restriction implied by
"Raft-family replica" — a candidate's log must be at least as up to date as
the voter's (later last term, or equal last term and at least the length). -/
def upToDate (cand voter : List LogEntry) : Prop :=
  lastTerm voter < lastTerm cand ∨
    (lastTerm voter = lastTerm cand ∧ voter.length ≤ cand.length)

instance (cand voter : List LogEntry) : Decidable (upToDate cand voter) := by
  unfold upToDate; infer_instance

/-- Candidate a voter's ghost vote entry maps to, forgetting the snapshot. -/
def voteFor {n : Nat} (s : GState n) (t : Nat) (v : Fin n) : Option (Fin n) :=
  (s.votes t v).map Prod.fst

/-- The set of nodes whose recorded vote in term `t` went to candidate `c`. -/
def voters {n : Nat} (s : GState n) (t : Nat) (c : Fin n) : Finset (Fin n) :=
  Finset.univ.filter (fun v => voteFor s t v = some c)

/-- The committed log as a plain sequence of entries (ghost). -/
def committedLog {n : Nat} (s : GState n) : List LogEntry :=
  s.committed.map CEntry.entry

/-- Commit tag (committing term) of the `j`-th committed entry, `0` out of
range. -/
def tagD {n : Nat} (s : GState n) (j : Nat) : Nat :=
  ((s.committed.get? j).map CEntry.ctag).getD 0

/-- A list (a node's log, or a vote-time snapshot) covers the first `k`
committed entries. -/
def covered {n : Nat} (s : GState n) (L : List LogEntry) (k : Nat) : Prop :=
  k ≤ L.length ∧ L.take k = (committedLog s).take k

instance {n : Nat} (s : GState n) (L : List LogEntry) (k : Nat) :
    Decidable (covered s L k) := by
  unfold covered; infer_instance

/-- Modelled from the spec: §4.2 "Follower → Candidate: on election-timeout
expiry …; increments `current_term`, votes for self".  The ghost vote entry
stores the voter's own log as the snapshot. -/
def timeoutEff {n : Nat} (s : GState n) (v : Fin n) : GState n :=
  let t := (s.node v).currentTerm + 1
  { s with
    node := Function.update s.node v
      { s.node v with currentTerm := t, role := NodeRole.Candidate },
    votes := fun u w =>
      if u = t ∧ w = v then some (v, (s.node v).log) else s.votes u w }

/-- Modelled from the spec: a voter `v` grants its vote for the candidate
`c`'s current term.  The voter adopts the candidate's term if larger
(stepping down to follower), refuses to vote twice differently within a
term, and applies the up-to-date check. -/
def grantVoteEff {n : Nat} (s : GState n) (v c : Fin n) : GState n :=
  let t := (s.node c).currentTerm
  { s with
    node := Function.update s.node v
      { s.node v with
        currentTerm := t,
        role := if (s.node v).currentTerm < t then NodeRole.Follower
                else (s.node v).role },
    votes := fun u w =>
      if u = t ∧ w = v then some (c, (s.node v).log) else s.votes u w }

/-- Modelled from the spec: §4.2 "Candidate → Leader: on receiving votes
from a majority (including self) within the same term."  Records the winner
in the ghost leader registry. -/
def becomeLeaderEff {n : Nat} (s : GState n) (c : Fin n) : GState n :=
  let t := (s.node c).currentTerm
  { s with
    node := Function.update s.node c { s.node c with role := NodeRole.Leader },
    leaderOf := fun u => if u = t then some c else s.leaderOf u }

/-- Modelled from the spec: §4.2 "accepts new `StoreCommand` proposals,
appends them as `LogEntry` at the next free index in its own term". -/
def clientRequestEff {n : Nat} (s : GState n) (l : Fin n) (cmd : StoreCommand) :
    GState n :=
  { s with
    node := Function.update s.node l
      { s.node l with
        log := (s.node l).log ++ [{ term := (s.node l).currentTerm, command := cmd }] } }

/-- Modelled from the spec: §4.2 follower handling of an `AppendEntries`-style
replication message from leader `l` with previous-index `p`: the follower
"appends/overwrites its own uncommitted tail to match", adopting the leader's
term, and advances its commit index to the leader's (capped by its log). -/
def appendEntriesEff {n : Nat} (s : GState n) (l f : Fin n) (p : Nat) : GState n :=
  let newLog := (s.node f).log.take p ++ (s.node l).log.drop p
  { s with
    node := Function.update s.node f
      { currentTerm := (s.node l).currentTerm,
        role := NodeRole.Follower,
        log := newLog,
        commitIndex := max (s.node f).commitIndex
          (min (s.node l).commitIndex newLog.length),
        lastApplied := (s.node f).lastApplied } }

/-- The set of nodes that currently acknowledge (persist in-log) the first
`k` entries of leader `l`'s log, at the leader's term. -/
def ackers {n : Nat} (s : GState n) (l : Fin n) (k : Nat) : Finset (Fin n) :=
  Finset.univ.filter (fun v =>
    (s.node v).currentTerm = (s.node l).currentTerm ∧
    k ≤ (s.node v).log.length ∧
    (s.node v).log.take k = (s.node l).log.take k)

/-- Index `k` of leader `l`'s log may become the commit index: a strict
majority acknowledges it and (standard Raft commit rule, implied by the
spec's "Raft-family replica") the last covered entry carries the leader's
current term. -/
def ackedOK {n : Nat} (s : GState n) (l : Fin n) (k : Nat) : Prop :=
  IsMajority (ackers s l k) ∧
    (k = 0 ∨ ((s.node l).log.get? (k - 1)).map LogEntry.term =
      some (s.node l).currentTerm)

instance {n : Nat} (s : GState n) (l : Fin n) (k : Nat) :
    Decidable (ackedOK s l k) := by
  unfold ackedOK; infer_instance

/-- The highest committable index of leader `l` (spec §4.2: "advances
`commit_index` to the highest index acknowledged … by a strict majority"). -/
def maxCommittable {n : Nat} (s : GState n) (l : Fin n) : Nat :=
  (List.range ((s.node l).log.length + 1)).foldl
    (fun acc k => if ackedOK s l k then k else acc) 0

/-- The highest index of leader `l`'s log acknowledged in-log by a strict
majority, with no condition on the term of the covered entries — the literal
reading of the spec's commit-advancement sentence. -/
def highestAcked {n : Nat} (s : GState n) (l : Fin n) : Nat :=
  (List.range ((s.node l).log.length + 1)).foldl
    (fun acc k => if IsMajority (ackers s l k) then k else acc) 0

/-- Modelled from the spec: the leader advances its commit index; the ghost
committed log is extended by the newly covered entries, tagged with the
committing term and the acknowledging quorum. -/
def advanceCommitEff {n : Nat} (s : GState n) (l : Fin n) : GState n :=
  let k := maxCommittable s l
  let ext := (((s.node l).log.take k).drop s.committed.length).map
    (fun e => CEntry.mk e (s.node l).currentTerm (ackers s l k))
  { s with
    node := Function.update s.node l
      { s.node l with commitIndex := max (s.node l).commitIndex k },
    committed := s.committed ++ ext }

/-- Modelled from the spec: §4.3 — the apply pipeline consumes the commit
stream strictly in index order: one step hands the entry at position
`lastApplied` to the local engine adapter (recorded in the ghost `applied`
sequence) and advances the pipeline position. -/
def applyEff {n : Nat} (s : GState n) (a : Fin n) : GState n :=
  { s with
    node := Function.update s.node a
      { s.node a with lastApplied := (s.node a).lastApplied + 1 },
    applied := Function.update s.applied a
      (s.applied a ++ ((s.node a).log.get? (s.node a).lastApplied).toList) }

/-- Modelled from the spec: the small-step transition relation of the
consensus core and apply pipeline (§4.2, §4.3, §5). -/
inductive Step {n : Nat} (s : GState n) : GState n → Prop
  | timeout (v : Fin n) (hrole : (s.node v).role ≠ NodeRole.Leader) :
      Step s (timeoutEff s v)
  | grantVote (v c : Fin n) (hc : (s.node c).role = NodeRole.Candidate)
      (hv : (s.node v).currentTerm < (s.node c).currentTerm ∨
        ((s.node v).currentTerm = (s.node c).currentTerm ∧
          (voteFor s (s.node c).currentTerm v = none ∨
            voteFor s (s.node c).currentTerm v = some c)))
      (hupd : upToDate (s.node c).log (s.node v).log) :
      Step s (grantVoteEff s v c)
  | becomeLeader (c : Fin n) (S : Finset (Fin n))
      (hc : (s.node c).role = NodeRole.Candidate)
      (hmaj : IsMajority S) (hself : c ∈ S)
      (hvotes : ∀ v ∈ S, voteFor s (s.node c).currentTerm v = some c) :
      Step s (becomeLeaderEff s c)
  | clientRequest (l : Fin n) (cmd : StoreCommand)
      (hl : (s.node l).role = NodeRole.Leader) :
      Step s (clientRequestEff s l cmd)
  | appendEntries (l f : Fin n) (p : Nat)
      (hl : (s.node l).role = NodeRole.Leader) (hne : l ≠ f)
      (hterm : (s.node f).currentTerm ≤ (s.node l).currentTerm)
      (hnotld : (s.node f).currentTerm = (s.node l).currentTerm →
        (s.node f).role ≠ NodeRole.Leader)
      (hp₁ : p ≤ (s.node f).log.length) (hp₂ : p ≤ (s.node l).log.length)
      (hprev : p = 0 ∨ ((s.node f).log.get? (p - 1)).map LogEntry.term =
        ((s.node l).log.get? (p - 1)).map LogEntry.term) :
      Step s (appendEntriesEff s l f p)
  | advanceCommit (l : Fin n) (hl : (s.node l).role = NodeRole.Leader) :
      Step s (advanceCommitEff s l)
  | applyCommitted (a : Fin n)
      (h : (s.node a).lastApplied < (s.node a).commitIndex) :
      Step s (applyEff s a)

/-- The initial state: every node a follower at term 0 with an empty log;
no votes, no leaders, nothing committed or applied. -/
def initState (n : Nat) : GState n :=
  { node := fun _ =>
      { currentTerm := 0, role := NodeRole.Follower, log := [],
        commitIndex := 0, lastApplied := 0 },
    votes := fun _ _ => none,
    leaderOf := fun _ => none,
    committed := [],
    applied := fun _ => [] }

/-- States reachable from the initial state by protocol steps. -/
def Reachable {n : Nat} (s : GState n) : Prop :=
  Relation.ReflTransGen Step (initState n) s

/-- Modelled from the spec: §4.1 — the outcome of executing one statement on
the local engine adapter: result rows (possibly empty, a write
acknowledgment) or a statement-level `EngineError`. -/
inductive EngineResult
  | rows (rs : List (List String))
  | failure (msg : String)
deriving DecidableEq

/-- Modelled from the spec: §4.1 — replaying a sequence of committed entries
in order against a fresh local engine adapter, threading the engine state.
The engine itself is the spec's opaque executor, passed as a function. -/
def replayDB (σ : Type) (exec : σ → String → EngineResult × σ) (db : σ) :
    List LogEntry → σ
  | [] => db
  | e :: rest => replayDB σ exec (exec db e.command.sql).2 rest

/-- The sequence of engine results produced by replaying entries in order. -/
def replayResults (σ : Type) (exec : σ → String → EngineResult × σ) (db : σ) :
    List LogEntry → List EngineResult
  | [] => []
  | e :: rest =>
      (exec db e.command.sql).1 ::
        replayResults σ exec (exec db e.command.sql).2 rest

/-- Modelled from the spec: §4.3/§4.4 — the state of one node's apply
pipeline and pending request table: the registered (unfulfilled) correlation
ids, the fulfillments made visible to waiting callers, the local engine
state, and the ghost sequence of statements handed to the engine. -/
structure PipeState (σ : Type) where
  table : List Nat
  delivered : List (Nat × EngineResult)
  db : σ
  engineCalls : List String

/-- Modelled from the spec: the events acting on a node's pending request
table: the dispatch layer registers a pending entry, the apply pipeline
applies a committed command, or the dispatch layer removes a timed-out
entry. -/
inductive PipeOp
  | register (k : Nat)
  | applyEntry (cmd : StoreCommand)
  | timeoutRemove (k : Nat)

/-- Modelled from the spec: §4.3 — applying one committed entry invokes the
engine exactly once; the pending-table lookup by the command's id either
fulfills (and releases) the matching entry or legitimately misses, in which
case the outcome is discarded.  §4.4 — register and timeout-removal are the
dispatch layer's table operations. -/
def pipeStep (σ : Type) (exec : σ → String → EngineResult × σ)
    (st : PipeState σ) : PipeOp → PipeState σ
  | PipeOp.register k => { st with table := k :: st.table }
  | PipeOp.timeoutRemove k => { st with table := st.table.erase k }
  | PipeOp.applyEntry c =>
      let r := exec st.db c.sql
      if c.id ∈ st.table then
        { table := st.table.erase c.id,
          delivered := st.delivered ++ [(c.id, r.1)],
          db := r.2,
          engineCalls := st.engineCalls ++ [c.sql] }
      else
        { st with db := r.2, engineCalls := st.engineCalls ++ [c.sql] }

/-- Run of a sequence of pipeline/table events. -/
def pipeRun (σ : Type) (exec : σ → String → EngineResult × σ)
    (st : PipeState σ) (ops : List PipeOp) : PipeState σ :=
  ops.foldl (pipeStep σ exec) st

/-- The results fulfilled for correlation id `k`, in order. -/
def deliveredFor (k : Nat) : List (Nat × EngineResult) → List EngineResult
  | [] => []
  | x :: rest =>
      if x.1 = k then x.2 :: deliveredFor k rest else deliveredFor k rest

/-- The event concerns correlation id `k`. -/
def touchesKey (k : Nat) : PipeOp → Prop
  | PipeOp.register k' => k' = k
  | PipeOp.applyEntry c => c.id = k
  | PipeOp.timeoutRemove k' => k' = k

/-- The event registers correlation id `k`. -/
def registersKey (k : Nat) : PipeOp → Prop
  | PipeOp.register k' => k' = k
  | _ => False

/-- The statements passed to the engine by the apply events of `ops`. -/
def applySqls (ops : List PipeOp) : List String :=
  ops.filterMap (fun op =>
    match op with
    | PipeOp.applyEntry c => some c.sql
    | _ => none)

/-- Modelled from the spec: §4.5 — the two client-selectable consistency
modes of `execute`. -/
inductive Consistency
  | Strong
  | RelaxedReads
deriving DecidableEq

/-- Modelled from the spec: §4.5 — the dispatch-visible state of one node:
its consensus core state, its pending request table keys, the ghost list of
commands proposed to the consensus core, the local engine state, and the
node-local monotonic command id counter. -/
structure DispatchState (σ : Type) where
  cons : Node
  table : List Nat
  proposals : List StoreCommand
  db : σ
  nextId : Nat

/-- Outcome of the dispatch layer's `execute`: an immediate local result
(relaxed read) or a registered pending entry the caller suspends on
(strong). -/
inductive ExecOutcome
  | done (r : EngineResult)
  | awaiting (key : Nat)

/-- Modelled from the spec: §4.5 — `execute(sql, consistency)`.
`RelaxedReads` executes directly against the local engine adapter;
`Strong` creates a `StoreCommand`, registers a pending entry and proposes
the command to the consensus core (the caller then suspends until
fulfillment). -/
def execute (σ : Type) (exec : σ → String → EngineResult × σ)
    (st : DispatchState σ) (sql : String) :
    Consistency → ExecOutcome × DispatchState σ
  | Consistency.RelaxedReads =>
      let r := exec st.db sql
      (ExecOutcome.done r.1, { st with db := r.2 })
  | Consistency.Strong =>
      let cmd : StoreCommand := { id := st.nextId, sql := sql }
      (ExecOutcome.awaiting cmd.id,
        { st with
          table := cmd.id :: st.table,
          proposals := st.proposals ++ [cmd],
          nextId := st.nextId + 1 })

/-- Entry terms are non-decreasing along a log. -/
def TermsSorted (l : List LogEntry) : Prop :=
  l.Pairwise (fun x y => x.term ≤ y.term)

/-- The number of committed entries whose commit tag is below `t`; since
commit tags are monotone they form a prefix of the committed log. -/
def tagsBelow {n : Nat} (s : GState n) (t : Nat) : Nat :=
  (s.committed.takeWhile (fun ce => decide (ce.ctag < t))).length

/-- The inductive invariant of the consensus model.  Conjuncts marked
"ghost" relate real node state to the ghost history; the rest are the
protocol facts the claims rest on. -/
structure Inv {n : Nat} (s : GState n) : Prop where
  votesTerm : ∀ t v, s.votes t v ≠ none → t ≤ (s.node v).currentTerm
  voteCandTerm : ∀ t v c L, s.votes t v = some (c, L) →
    t ≤ (s.node c).currentTerm
  leaderMaj : ∀ t c, s.leaderOf t = some c → IsMajority (voters s t c)
  leaderGhost : ∀ l, (s.node l).role = NodeRole.Leader →
    s.leaderOf (s.node l).currentTerm = some l
  leaderStable : ∀ t c, s.leaderOf t = some c →
    t ≤ (s.node c).currentTerm ∧
      ((s.node c).currentTerm = t → (s.node c).role = NodeRole.Leader)
  leaderPos : ∀ t c, s.leaderOf t = some c → 1 ≤ t
  candTerm : ∀ v, (s.node v).role = NodeRole.Candidate →
    1 ≤ (s.node v).currentTerm
  candSelfVote : ∀ v, (s.node v).role = NodeRole.Candidate →
    voteFor s (s.node v).currentTerm v = some v
  entryLeader : ∀ a j e, (s.node a).log.get? j = some e →
    s.leaderOf e.term ≠ none
  logTermBound : ∀ a j e, (s.node a).log.get? j = some e →
    e.term ≤ (s.node a).currentTerm
  logSorted : ∀ a, TermsSorted (s.node a).log
  leaderSup : ∀ l, (s.node l).role = NodeRole.Leader →
    ∀ a j e, (s.node a).log.get? j = some e →
      e.term = (s.node l).currentTerm →
      j < (s.node l).log.length ∧
        (s.node a).log.take (j + 1) = (s.node l).log.take (j + 1)
  logMatch : ∀ a b j ea eb, (s.node a).log.get? j = some ea →
    (s.node b).log.get? j = some eb → ea.term = eb.term →
    (s.node a).log.take (j + 1) = (s.node b).log.take (j + 1)
  snapSorted : ∀ t v c L, s.votes t v = some (c, L) → TermsSorted L
  voteUpToDate : ∀ t v c L, s.votes t v = some (c, L) →
    (s.node c).currentTerm = t → (s.node c).role = NodeRole.Candidate →
    upToDate (s.node c).log L
  tagsMono : ∀ i j, i ≤ j → j < s.committed.length → tagD s i ≤ tagD s j
  tagPos : ∀ j, j < s.committed.length → 1 ≤ tagD s j
  tagLeader : ∀ j, j < s.committed.length → s.leaderOf (tagD s j) ≠ none
  cgTermLe : ∀ j ce, s.committed.get? j = some ce → ce.entry.term ≤ ce.ctag
  cgBoundary : ∀ j ce, s.committed.get? j = some ce →
    (∀ ce', s.committed.get? (j + 1) = some ce' → ce'.ctag ≠ ce.ctag) →
    ce.entry.term = ce.ctag
  ackInv : ∀ j ce, s.committed.get? j = some ce →
    IsMajority ce.cack ∧ ∀ v ∈ ce.cack,
      covered s (s.node v).log (j + 1) ∧ ce.ctag ≤ (s.node v).currentTerm ∧
      ∀ t c L, ce.ctag < t → s.votes t v = some (c, L) → covered s L (j + 1)
  quorumCovered : ∀ t c, IsMajority (voters s t c) →
    (s.node c).currentTerm = t →
    ((s.node c).role = NodeRole.Candidate ∨ (s.node c).role = NodeRole.Leader) →
    ∀ k, k ≤ s.committed.length → (∀ j < k, tagD s j < t) →
    covered s (s.node c).log k
  leaderCovered : ∀ l, (s.node l).role = NodeRole.Leader →
    ∀ k, k ≤ s.committed.length →
    (∀ j < k, tagD s j ≤ (s.node l).currentTerm) →
    covered s (s.node l).log k
  entryCovered : ∀ a p e, (s.node a).log.get? p = some e →
    ∀ k, k ≤ s.committed.length →
    ((∀ j < k, tagD s j < e.term) →
      k ≤ p + 1 ∧ (s.node a).log.take k = (committedLog s).take k) ∧
    (k ≤ p + 1 → (∀ j < k, tagD s j ≤ e.term) →
      (s.node a).log.take k = (committedLog s).take k)
  nodeCommit : ∀ a, (s.node a).commitIndex ≤ s.committed.length ∧
    (s.node a).log.take (s.node a).commitIndex =
      (committedLog s).take (s.node a).commitIndex ∧
    (s.node a).commitIndex ≤ (s.node a).log.length
  nodeCommitTag : ∀ a j, j < (s.node a).commitIndex →
    tagD s j ≤ (s.node a).currentTerm
  appliedDef : ∀ a, s.applied a = (s.node a).log.take (s.node a).lastApplied
  appliedLe : ∀ a, (s.node a).lastApplied ≤ (s.node a).commitIndex

/-- Modelled from the spec: a concrete three-node execution.  Node 0 wins
term 1, appends one term-1 entry and replicates it to everyone, but before
any commit advances node 1 wins term 2 (its log is up to date).  The new
leader's single entry is then in-log on a strict majority at the leader's
term, yet still carries term 1, not the leader's current term 2. -/
def cexState : GState 3 :=
  becomeLeaderEff
    (grantVoteEff
      (timeoutEff
        (appendEntriesEff
          (appendEntriesEff
            (clientRequestEff
              (becomeLeaderEff
                (grantVoteEff (timeoutEff (initState 3) 0) 1 0)
                0)
              0 { id := 1, sql := "c" })
            0 1 0)
          0 2 0)
        1)
      0 1)
    1

theorem maj_inter {n : Nat} {A B : Finset (Fin n)} (hA : IsMajority A)
    (hB : IsMajority B) : ∃ v, v ∈ A ∧ v ∈ B := by
  by_contra h
  push_neg at h
  have hdisj : A ∩ B = ∅ := by
    ext x
    simp only [Finset.mem_inter, Finset.not_mem_empty, iff_false]
    exact fun hx => h x hx.1 hx.2
  have hcard : (A ∪ B).card + (A ∩ B).card = A.card + B.card :=
    Finset.card_union_add_card_inter A B
  rw [hdisj] at hcard
  simp only [Finset.card_empty, Nat.add_zero] at hcard
  have hle : (A ∪ B).card ≤ n := by
    have := Finset.card_le_univ (A ∪ B)
    simpa using this
  unfold IsMajority at hA hB
  omega

theorem maj_mono {n : Nat} {A B : Finset (Fin n)} (h : A ⊆ B)
    (hA : IsMajority A) : IsMajority B := by
  have := Finset.card_le_card h
  unfold IsMajority at hA ⊢
  omega

theorem covered_zero {n : Nat} (s : GState n) (L : List LogEntry) :
    covered s L 0 :=
  ⟨Nat.zero_le _, by simp⟩

theorem upToDate_refl (l : List LogEntry) : upToDate l l :=
  Or.inr ⟨rfl, le_refl _⟩

theorem voteFor_eq_some {n : Nat} (s : GState n) (t : Nat) (v c : Fin n) :
    voteFor s t v = some c ↔ ∃ L, s.votes t v = some (c, L) := by
  unfold voteFor
  cases h : s.votes t v with
  | none => simp
  | some p =>
      cases p with
      | mk c' L =>
          simp only [Option.map_some']
          constructor
          · intro he
            exact ⟨L, by simp_all⟩
          · rintro ⟨L', hL'⟩
            have : c' = c ∧ L = L' := by
              constructor <;> injection hL' with h1 <;> simp_all
            simp [this.1]

theorem mem_voters {n : Nat} (s : GState n) (t : Nat) (c v : Fin n) :
    v ∈ voters s t c ↔ voteFor s t v = some c := by
  unfold voters
  simp

theorem take_eq_of_take_eq {α : Type} {l₁ l₂ : List α} {m : Nat}
    (h : l₁.take m = l₂.take m) {k : Nat} (hk : k ≤ m) :
    l₁.take k = l₂.take k := by
  have h₁ : l₁.take k = (l₁.take m).take k := by
    rw [List.take_take, Nat.min_eq_left hk]
  have h₂ : l₂.take k = (l₂.take m).take k := by
    rw [List.take_take, Nat.min_eq_left hk]
  rw [h₁, h₂, h]

theorem get?_eq_of_take_eq {α : Type} {l₁ l₂ : List α} {m : Nat}
    (h : l₁.take m = l₂.take m) {j : Nat} (hj : j < m) :
    l₁.get? j = l₂.get? j := by
  have h₁ : (l₁.take m).get? j = l₁.get? j := List.get?_take hj
  have h₂ : (l₂.take m).get? j = l₂.get? j := List.get?_take hj
  rw [← h₁, ← h₂, h]

theorem committedLog_length {n : Nat} (s : GState n) :
    (committedLog s).length = s.committed.length := by
  unfold committedLog
  simp

theorem tagD_eq {n : Nat} (s : GState n) {j : Nat} {ce : CEntry n}
    (h : s.committed.get? j = some ce) : tagD s j = ce.ctag := by
  unfold tagD
  rw [h]
  rfl

theorem committedLog_get? {n : Nat} (s : GState n) {j : Nat} {ce : CEntry n}
    (h : s.committed.get? j = some ce) :
    (committedLog s).get? j = some ce.entry := by
  unfold committedLog
  rw [List.get?_map, h]
  rfl

theorem covered_mono {n : Nat} {s : GState n} {L : List LogEntry} {k j : Nat}
    (h : covered s L k) (hj : j ≤ k) : covered s L j :=
  ⟨le_trans hj h.1, take_eq_of_take_eq h.2 hj⟩

theorem covered_get {n : Nat} {s : GState n} {L : List LogEntry} {k j : Nat}
    (h : covered s L k) (hj : j < k) :
    L.get? j = (committedLog s).get? j :=
  get?_eq_of_take_eq h.2 hj

theorem term_le_lastTerm {L : List LogEntry} (hs : TermsSorted L) {j : Nat}
    {e : LogEntry} (h : L.get? j = some e) : e.term ≤ lastTerm L := by
  have hj : j < L.length := List.get?_eq_some.mp h |>.1
  have hne : L ≠ [] := by
    intro he
    rw [he] at hj
    exact absurd hj (by simp)
  have hlast : L.getLast? = L.get? (L.length - 1) :=
    (List.getLast?_eq_get? L)
  rcases Nat.lt_or_ge j (L.length - 1) with hlt | hge
  · have hL := List.pairwise_iff_get.mp hs
    have hjl : j < L.length := hj
    have hll : L.length - 1 < L.length := by omega
    have := hL ⟨j, hjl⟩ ⟨L.length - 1, hll⟩ (by simpa using hlt)
    have hgetj : L.get ⟨j, hjl⟩ = e := by
      have := List.get?_eq_get hjl
      rw [this] at h
      injection h
    have hgl : L.get? (L.length - 1) = some (L.get ⟨L.length - 1, hll⟩) :=
      List.get?_eq_get hll
    unfold lastTerm
    rw [hlast, hgl]
    simp only [Option.map_some', Option.getD_some]
    rw [hgetj] at this
    exact this
  · have hj' : j = L.length - 1 := by omega
    unfold lastTerm
    rw [hlast, ← hj', h]
    simp

theorem lastTerm_nil : lastTerm [] = 0 := rfl

theorem foldl_greatest (P : Nat → Prop) [DecidablePred P] (m : Nat) :
    (((List.range m).foldl (fun acc k => if P k then k else acc) 0 = 0) ∨
      (P ((List.range m).foldl (fun acc k => if P k then k else acc) 0) ∧
        (List.range m).foldl (fun acc k => if P k then k else acc) 0 < m)) ∧
    (∀ k, k < m → P k →
      k ≤ (List.range m).foldl (fun acc k => if P k then k else acc) 0) := by
  induction m with
  | zero => exact ⟨Or.inl rfl, fun k hk _ => absurd hk (by omega)⟩
  | succ m ih =>
      rw [List.range_succ, List.foldl_append]
      simp only [List.foldl_cons, List.foldl_nil]
      by_cases hm : P m
      · rw [if_pos hm]
        exact ⟨Or.inr ⟨hm, by omega⟩, fun k hk _ => by omega⟩
      · rw [if_neg hm]
        refine ⟨?_, ?_⟩
        · rcases ih.1 with h | h
          · exact Or.inl h
          · exact Or.inr ⟨h.1, by omega⟩
        · intro k hk hP
          rcases Nat.lt_or_ge k m with h1 | h1
          · exact ih.2 k h1 hP
          · have hkm : k = m := by omega
            rw [hkm] at hP
            exact absurd hP hm

theorem takeWhile_length_le {α : Type} (p : α → Bool) (l : List α) :
    (l.takeWhile p).length ≤ l.length := by
  induction l with
  | nil => simp [List.takeWhile]
  | cons a as ih =>
      cases hp : p a <;> simp [List.takeWhile, hp] <;> omega

theorem takeWhile_get?_sat {α : Type} (p : α → Bool) (l : List α) :
    ∀ j, j < (l.takeWhile p).length →
      ∃ x, l.get? j = some x ∧ p x = true := by
  induction l with
  | nil =>
      intro j hj
      simp [List.takeWhile] at hj
  | cons a as ih =>
      intro j hj
      cases hp : p a with
      | false =>
          rw [List.takeWhile, hp] at hj
          simp at hj
      | true =>
          rw [List.takeWhile, hp] at hj
          cases j with
          | zero => exact ⟨a, rfl, hp⟩
          | succ m =>
              simp only [List.length_cons] at hj
              exact ih m (by omega)

theorem takeWhile_boundary {α : Type} (p : α → Bool) (l : List α)
    (h : (l.takeWhile p).length < l.length) :
    ∃ x, l.get? ((l.takeWhile p).length) = some x ∧ p x = false := by
  induction l with
  | nil => simp at h
  | cons a as ih =>
      cases hp : p a with
      | false =>
          rw [List.takeWhile, hp]
          exact ⟨a, rfl, hp⟩
      | true =>
          rw [List.takeWhile, hp] at h ⊢
          simp only [List.length_cons] at h
          obtain ⟨x, hx, hpx⟩ := ih (by omega)
          exact ⟨x, hx, hpx⟩

theorem lastTerm_get? {L : List LogEntry} (h : L ≠ []) :
    ∃ e, L.get? (L.length - 1) = some e ∧ e.term = lastTerm L := by
  have hlast : L.getLast? = L.get? (L.length - 1) := List.getLast?_eq_get? L
  cases hL : L.getLast? with
  | none => exact absurd (List.getLast?_eq_none.mp hL) h
  | some e =>
      refine ⟨e, ?_, ?_⟩
      · rw [← hlast, hL]
      · unfold lastTerm
        rw [hL]
        rfl

theorem ne_nil_of_lastTerm_pos {L : List LogEntry} (h : 1 ≤ lastTerm L) :
    L ≠ [] := by
  intro he
  rw [he, lastTerm_nil] at h
  omega

theorem leader_unique {n : Nat} {s : GState n} (hInv : Inv s) {a b : Fin n}
    (ha : (s.node a).role = NodeRole.Leader)
    (hb : (s.node b).role = NodeRole.Leader)
    (ht : (s.node a).currentTerm = (s.node b).currentTerm) : a = b := by
  have h₁ := hInv.leaderGhost a ha
  have h₂ := hInv.leaderGhost b hb
  rw [ht] at h₁
  rw [h₁] at h₂
  injection h₂

theorem maj_voters_unique {n : Nat} {s : GState n} {t : Nat} {c c' : Fin n}
    (hc : IsMajority (voters s t c)) (hc' : IsMajority (voters s t c')) :
    c = c' := by
  obtain ⟨v, hv, hv'⟩ := maj_inter hc hc'
  rw [mem_voters] at hv hv'
  rw [hv] at hv'
  injection hv'

theorem candidate_no_leader {n : Nat} {s : GState n} (hInv : Inv s) {c : Fin n}
    (hc : (s.node c).role = NodeRole.Candidate)
    (hmaj : IsMajority (voters s ((s.node c).currentTerm) c)) :
    s.leaderOf ((s.node c).currentTerm) = none := by
  cases hx : s.leaderOf ((s.node c).currentTerm) with
  | none => rfl
  | some x =>
      have hxmaj := hInv.leaderMaj _ x hx
      have hxc : x = c := maj_voters_unique hxmaj hmaj
      subst hxc
      have := (hInv.leaderStable _ x hx).2 rfl
      rw [this] at hc
      exact absurd hc (by simp)

theorem commit_term_dom {n : Nat} {s : GState n} (hInv : Inv s) {l : Fin n}
    {k : Nat} (hmaj : IsMajority (ackers s l k)) :
    ∀ t' c, s.leaderOf t' = some c → t' ≤ (s.node l).currentTerm := by
  intro t' c hlead
  have hvmaj := hInv.leaderMaj t' c hlead
  obtain ⟨v, hva, hvb⟩ := maj_inter hmaj hvmaj
  unfold ackers at hva
  simp only [Finset.mem_filter, Finset.mem_univ, true_and] at hva
  rw [mem_voters] at hvb
  obtain ⟨L, hL⟩ := (voteFor_eq_some s t' v c).mp hvb
  have := hInv.votesTerm t' v (by rw [hL]; simp)
  omega

theorem tags_le_of_ack {n : Nat} {s : GState n} (hInv : Inv s) {l : Fin n}
    {k : Nat} (hmaj : IsMajority (ackers s l k)) :
    ∀ j, j < s.committed.length → tagD s j ≤ (s.node l).currentTerm := by
  intro j hj
  have hne := hInv.tagLeader j hj
  cases hx : s.leaderOf (tagD s j) with
  | none => exact absurd hx hne
  | some x => exact commit_term_dom hInv hmaj _ x hx

theorem entry_term_le_of_ack {n : Nat} {s : GState n} (hInv : Inv s) {l : Fin n}
    {k : Nat} (hmaj : IsMajority (ackers s l k)) :
    ∀ a j e, (s.node a).log.get? j = some e →
      e.term ≤ (s.node l).currentTerm := by
  intro a j e he
  have hne := hInv.entryLeader a j e he
  cases hx : s.leaderOf e.term with
  | none => exact absurd hx hne
  | some x => exact commit_term_dom hInv hmaj _ x hx

theorem pipeRun_append (σ : Type) (exec : σ → String → EngineResult × σ)
    (st : PipeState σ) (ops₁ ops₂ : List PipeOp) :
    pipeRun σ exec st (ops₁ ++ ops₂) =
      pipeRun σ exec (pipeRun σ exec st ops₁) ops₂ :=
  List.foldl_append _ _ _ _

theorem deliveredFor_append (k : Nat) (l₁ l₂ : List (Nat × EngineResult)) :
    deliveredFor k (l₁ ++ l₂) = deliveredFor k l₁ ++ deliveredFor k l₂ := by
  induction l₁ with
  | nil => rfl
  | cons x rest ih =>
      simp only [List.cons_append, deliveredFor]
      by_cases hx : x.1 = k <;> simp [hx, ih]

theorem notouch_step (σ : Type) (exec : σ → String → EngineResult × σ)
    (st : PipeState σ) (k : Nat) (op : PipeOp) (h : ¬ touchesKey k op) :
    (pipeStep σ exec st op).table.count k = st.table.count k ∧
      deliveredFor k (pipeStep σ exec st op).delivered =
        deliveredFor k st.delivered := by
  cases op with
  | register k' =>
      have hne : k' ≠ k := h
      constructor
      · simp [pipeStep, List.count_cons, hne]
      · rfl
  | timeoutRemove k' =>
      have hne : k' ≠ k := h
      constructor
      · simpa [pipeStep] using List.count_erase_of_ne (Ne.symm hne) st.table
      · rfl
  | applyEntry c =>
      have hne : c.id ≠ k := h
      by_cases hmem : c.id ∈ st.table
      · constructor
        · simpa [pipeStep, hmem] using List.count_erase_of_ne (Ne.symm hne) st.table
        · simp [pipeStep, hmem, deliveredFor_append, deliveredFor, hne]
      · constructor
        · simp [pipeStep, hmem]
        · simp [pipeStep, hmem]

theorem notouch_run (σ : Type) (exec : σ → String → EngineResult × σ)
    (st : PipeState σ) (k : Nat) (ops : List PipeOp)
    (h : ∀ op ∈ ops, ¬ touchesKey k op) :
    (pipeRun σ exec st ops).table.count k = st.table.count k ∧
      deliveredFor k (pipeRun σ exec st ops).delivered =
        deliveredFor k st.delivered := by
  induction ops generalizing st with
  | nil => exact ⟨rfl, rfl⟩
  | cons op rest ih =>
      have h1 := notouch_step σ exec st k op (h op (by simp))
      have h2 := ih (pipeStep σ exec st op) (fun o ho => h o (by simp [ho]))
      exact ⟨h2.1.trans h1.1, h2.2.trans h1.2⟩

theorem noregister_run (σ : Type) (exec : σ → String → EngineResult × σ)
    (st : PipeState σ) (k : Nat) (ops : List PipeOp)
    (hk : k ∉ st.table) (h : ∀ op ∈ ops, ¬ registersKey k op) :
    k ∉ (pipeRun σ exec st ops).table ∧
      deliveredFor k (pipeRun σ exec st ops).delivered =
        deliveredFor k st.delivered := by
  induction ops generalizing st with
  | nil => exact ⟨hk, rfl⟩
  | cons op rest ih =>
      have hstep : k ∉ (pipeStep σ exec st op).table ∧
          deliveredFor k (pipeStep σ exec st op).delivered =
            deliveredFor k st.delivered := by
        cases op with
        | register k' =>
            have hne : k' ≠ k := h (PipeOp.register k') (by simp)
            constructor
            · simp [pipeStep, hk, Ne.symm hne]
            · rfl
        | timeoutRemove k' =>
            constructor
            · exact fun hmem => hk (List.mem_of_mem_erase hmem)
            · rfl
        | applyEntry c =>
            by_cases hmem : c.id ∈ st.table
            · have hne : c.id ≠ k := fun he => hk (he ▸ hmem)
              constructor
              · intro hmem'
                simp only [pipeStep, hmem, if_pos] at hmem'
                exact hk (List.mem_of_mem_erase hmem')
              · simp [pipeStep, hmem, deliveredFor_append, deliveredFor, hne]
            · constructor
              · simpa [pipeStep, hmem] using hk
              · simp [pipeStep, hmem]
      have h2 := ih (pipeStep σ exec st op) hstep.1
        (fun o ho => h o (by simp [ho]))
      exact ⟨h2.1, h2.2.trans hstep.2⟩

theorem applySqls_cons (op : PipeOp) (rest : List PipeOp) :
    applySqls (op :: rest) = applySqls [op] ++ applySqls rest := by
  cases op <;> simp [applySqls]

theorem engineCalls_run (σ : Type) (exec : σ → String → EngineResult × σ)
    (st : PipeState σ) (ops : List PipeOp) :
    (pipeRun σ exec st ops).engineCalls = st.engineCalls ++ applySqls ops := by
  induction ops generalizing st with
  | nil => simp [pipeRun, applySqls]
  | cons op rest ih =>
      have hstep : (pipeStep σ exec st op).engineCalls =
          st.engineCalls ++ applySqls [op] := by
        cases op with
        | register k' => simp [pipeStep, applySqls]
        | timeoutRemove k' => simp [pipeStep, applySqls]
        | applyEntry c =>
            by_cases hmem : c.id ∈ st.table <;>
              simp [pipeStep, hmem, applySqls]
      have := ih (pipeStep σ exec st op)
      rw [pipeRun] at this ⊢
      rw [List.foldl_cons, this, hstep]
      rw [applySqls_cons op rest, List.append_assoc]

/-- C5: a `Strong` request whose command eventually commits is fulfilled
exactly once on its originating node, with the engine result of applying
that command at its place in the apply order; and a request whose pending
entry was removed (timeout) never observes a late fulfillment: with the key
absent and never re-registered, any further events (late applies included)
deliver nothing for it. -/
theorem C5_pending_fulfillment (σ : Type) (exec : σ → String → EngineResult × σ)
    (st₀ : PipeState σ) (k : Nat) (q : String) (pre mid post : List PipeOp)
    (hpre : ∀ op ∈ pre, ¬ touchesKey k op)
    (hmid : ∀ op ∈ mid, ¬ touchesKey k op)
    (hpost : ∀ op ∈ post, ¬ touchesKey k op)
    (hk : k ∉ st₀.table) :
    (deliveredFor k (pipeRun σ exec st₀
        (pre ++ PipeOp.register k ::
          (mid ++ PipeOp.applyEntry { id := k, sql := q } :: post))).delivered =
      deliveredFor k st₀.delivered ++
        [(exec (pipeRun σ exec st₀ (pre ++ PipeOp.register k :: mid)).db q).1]) ∧
    (∀ ops : List PipeOp, (∀ op ∈ ops, ¬ registersKey k op) →
      deliveredFor k (pipeRun σ exec st₀ ops).delivered =
        deliveredFor k st₀.delivered) := by
  constructor
  · have hk0 : st₀.table.count k = 0 := List.count_eq_zero.mpr hk
    have hpre' := notouch_run σ exec st₀ k pre hpre
    set st₁ := pipeRun σ exec st₀ pre with hst₁
    have hreg : (pipeStep σ exec st₁ (PipeOp.register k)).table.count k = 1 ∧
        (pipeStep σ exec st₁ (PipeOp.register k)).delivered = st₁.delivered := by
      constructor
      · simp [pipeStep, List.count_cons, hpre'.1, hk0]
      · rfl
    set st₂ := pipeStep σ exec st₁ (PipeOp.register k) with hst₂
    have hmid' := notouch_run σ exec st₂ k mid hmid
    set st₃ := pipeRun σ exec st₂ mid with hst₃
    have hcnt₃ : st₃.table.count k = 1 := hmid'.1.trans hreg.1
    have hmem₃ : k ∈ st₃.table := by
      by_contra hnot
      rw [List.count_eq_zero.mpr hnot] at hcnt₃
      exact absurd hcnt₃ (by simp)
    have hcnt₄ : (pipeStep σ exec st₃
        (PipeOp.applyEntry { id := k, sql := q })).table.count k = 0 := by
      simp only [pipeStep, hmem₃, if_pos]
      have := List.count_erase_self k st₃.table
      rw [this, hcnt₃]
    set st₄ := pipeStep σ exec st₃ (PipeOp.applyEntry { id := k, sql := q })
      with hst₄
    have hd₄ : deliveredFor k st₄.delivered =
        deliveredFor k st₃.delivered ++ [(exec st₃.db q).1] := by
      rw [hst₄]
      simp [pipeStep, hmem₃, deliveredFor_append, deliveredFor]
    have hmem₄ : k ∉ st₄.table := List.count_eq_zero.mp hcnt₄
    have hpost' := noregister_run σ exec st₄ k post hmem₄
      (fun op hop => by
        have := hpost op hop
        intro hreg'
        cases op with
        | register k' => exact this hreg'
        | applyEntry c => exact hreg'
        | timeoutRemove k' => exact hreg')
    have hsplit : pipeRun σ exec st₀
        (pre ++ PipeOp.register k ::
          (mid ++ PipeOp.applyEntry { id := k, sql := q } :: post)) =
        pipeRun σ exec st₄ post := by
      rw [pipeRun_append]
      show pipeRun σ exec st₁ _ = _
      rw [pipeRun]
      rw [List.foldl_cons]
      rw [show List.foldl (pipeStep σ exec) (pipeStep σ exec st₁ (PipeOp.register k))
          (mid ++ PipeOp.applyEntry { id := k, sql := q } :: post) =
          pipeRun σ exec st₂ (mid ++ PipeOp.applyEntry { id := k, sql := q } :: post)
          from rfl]
      rw [pipeRun_append]
      rw [show pipeRun σ exec st₃ (PipeOp.applyEntry { id := k, sql := q } :: post) =
          pipeRun σ exec st₄ post from rfl]
    rw [hsplit]
    have hmid'' : st₃.db = (pipeRun σ exec st₀ (pre ++ PipeOp.register k :: mid)).db := by
      rw [pipeRun_append]
      rfl
    rw [hpost'.2, hd₄, hmid'.2, hreg.2, hpre'.2, hmid'']
  · intro ops hops
    exact (noregister_run σ exec st₀ k ops hk hops).2

/-- C8: when the engine returns an `EngineError` for a committed entry, the
apply pipeline performs exactly one engine invocation for that entry (no
retry — and over any run each apply event invokes the engine exactly once),
the error is delivered verbatim to exactly the request whose command
produced it, and the fulfillments of every other correlation id are
untouched. -/
theorem C8_engine_error_terminal (σ : Type) (exec : σ → String → EngineResult × σ)
    (st : PipeState σ) (c : StoreCommand) (msg : String)
    (hfail : (exec st.db c.sql).1 = EngineResult.failure msg) :
    ((pipeStep σ exec st (PipeOp.applyEntry c)).engineCalls =
      st.engineCalls ++ [c.sql]) ∧
    (∀ k, k ≠ c.id →
      deliveredFor k (pipeStep σ exec st (PipeOp.applyEntry c)).delivered =
        deliveredFor k st.delivered) ∧
    (c.id ∈ st.table →
      (pipeStep σ exec st (PipeOp.applyEntry c)).delivered =
        st.delivered ++ [(c.id, EngineResult.failure msg)]) ∧
    (∀ ops : List PipeOp,
      (pipeRun σ exec st ops).engineCalls = st.engineCalls ++ applySqls ops) := by
  refine ⟨?_, ?_, ?_, fun ops => engineCalls_run σ exec st ops⟩
  · by_cases hmem : c.id ∈ st.table <;> simp [pipeStep, hmem]
  · intro k hkne
    by_cases hmem : c.id ∈ st.table
    · simp [pipeStep, hmem, deliveredFor_append, deliveredFor, Ne.symm hkne]
    · simp [pipeStep, hmem]
  · intro hmem
    simp [pipeStep, hmem, hfail]

/-- C9: executing with `RelaxedReads` runs the statement directly on the
local engine adapter and leaves the consensus core state, the pending
request table, the proposal stream and the command id counter untouched: no
`StoreCommand` is created and nothing reaches the consensus core. -/
theorem C9_relaxed_reads_frame (σ : Type) (exec : σ → String → EngineResult × σ)
    (st : DispatchState σ) (sql : String) :
    (execute σ exec st sql Consistency.RelaxedReads).1 =
      ExecOutcome.done (exec st.db sql).1 ∧
    (execute σ exec st sql Consistency.RelaxedReads).2.cons = st.cons ∧
    (execute σ exec st sql Consistency.RelaxedReads).2.table = st.table ∧
    (execute σ exec st sql Consistency.RelaxedReads).2.proposals = st.proposals ∧
    (execute σ exec st sql Consistency.RelaxedReads).2.nextId = st.nextId :=
  ⟨rfl, rfl, rfl, rfl, rfl⟩

/-- C10: any consistency mode other than the explicit opt-in `RelaxedReads`
is `Strong`, and every such request is routed through consensus: a
`StoreCommand` is created and proposed to the consensus core, a pending
entry is registered, and the statement is not executed directly against the
local engine. -/
theorem C10_strong_default (σ : Type) (exec : σ → String → EngineResult × σ)
    (st : DispatchState σ) (sql : String) (c : Consistency)
    (hc : c ≠ Consistency.RelaxedReads) :
    c = Consistency.Strong ∧
    (execute σ exec st sql c).2.proposals =
      st.proposals ++ [{ id := st.nextId, sql := sql }] ∧
    (execute σ exec st sql c).2.table = st.nextId :: st.table ∧
    (execute σ exec st sql c).2.db = st.db ∧
    (execute σ exec st sql c).1 = ExecOutcome.awaiting st.nextId := by
  have hcs : c = Consistency.Strong := by
    cases c with
    | Strong => rfl
    | RelaxedReads => exact absurd rfl hc
  subst hcs
  exact ⟨rfl, rfl, rfl, rfl, rfl⟩

/-- C5 witness: concrete single-request run with a trivial engine. -/
theorem C5_pending_fulfillment_witness :
    (deliveredFor 7 (pipeRun Unit (fun db _ => (EngineResult.rows [], db))
        { table := [], delivered := [], db := (), engineCalls := [] }
        ([] ++ PipeOp.register 7 ::
          ([] ++ PipeOp.applyEntry { id := 7, sql := "SELECT 1" } :: []))).delivered =
      deliveredFor 7 ([] : List (Nat × EngineResult)) ++
        [((fun (db : Unit) (_ : String) => (EngineResult.rows [], db))
          (pipeRun Unit (fun db _ => (EngineResult.rows [], db))
            { table := [], delivered := [], db := (), engineCalls := [] }
            ([] ++ PipeOp.register 7 :: [])).db "SELECT 1").1]) ∧
    (∀ ops : List PipeOp, (∀ op ∈ ops, ¬ registersKey 7 op) →
      deliveredFor 7 (pipeRun Unit (fun db _ => (EngineResult.rows [], db))
        { table := [], delivered := [], db := (), engineCalls := [] } ops).delivered =
        deliveredFor 7 ([] : List (Nat × EngineResult))) :=
  C5_pending_fulfillment Unit (fun db _ => (EngineResult.rows [], db))
    { table := [], delivered := [], db := (), engineCalls := [] } 7 "SELECT 1"
    [] [] [] (by simp) (by simp) (by simp) (by simp)

/-- C8 witness: concrete failing engine call on a registered key. -/
theorem C8_engine_error_terminal_witness :
    (((pipeStep Unit (fun db _ => (EngineResult.failure "syntax error", db))
        { table := [3], delivered := [], db := (), engineCalls := [] }
        (PipeOp.applyEntry { id := 3, sql := "BAD SQL" })).engineCalls =
      [] ++ ["BAD SQL"]) ∧
    (∀ k, k ≠ 3 →
      deliveredFor k (pipeStep Unit (fun db _ => (EngineResult.failure "syntax error", db))
        { table := [3], delivered := [], db := (), engineCalls := [] }
        (PipeOp.applyEntry { id := 3, sql := "BAD SQL" })).delivered =
        deliveredFor k ([] : List (Nat × EngineResult))) ∧
    ((3 : Nat) ∈ [3] →
      (pipeStep Unit (fun db _ => (EngineResult.failure "syntax error", db))
        { table := [3], delivered := [], db := (), engineCalls := [] }
        (PipeOp.applyEntry { id := 3, sql := "BAD SQL" })).delivered =
        [] ++ [(3, EngineResult.failure "syntax error")]) ∧
    (∀ ops : List PipeOp,
      (pipeRun Unit (fun db _ => (EngineResult.failure "syntax error", db))
        { table := [3], delivered := [], db := (), engineCalls := [] } ops).engineCalls =
        [] ++ applySqls ops)) :=
  C8_engine_error_terminal Unit (fun db _ => (EngineResult.failure "syntax error", db))
    { table := [3], delivered := [], db := (), engineCalls := [] }
    { id := 3, sql := "BAD SQL" } "syntax error" rfl

/-- C10 witness: concrete strong-mode execution. -/
theorem C10_strong_default_witness :
    Consistency.Strong = Consistency.Strong ∧
    (execute Unit (fun db _ => (EngineResult.rows [], db))
      { cons := { currentTerm := 0, role := NodeRole.Leader, log := [],
                  commitIndex := 0, lastApplied := 0 },
        table := [], proposals := [], db := (), nextId := 0 }
      "INSERT INTO t VALUES (1)" Consistency.Strong).2.proposals =
      [] ++ [{ id := 0, sql := "INSERT INTO t VALUES (1)" }] ∧
    (execute Unit (fun db _ => (EngineResult.rows [], db))
      { cons := { currentTerm := 0, role := NodeRole.Leader, log := [],
                  commitIndex := 0, lastApplied := 0 },
        table := [], proposals := [], db := (), nextId := 0 }
      "INSERT INTO t VALUES (1)" Consistency.Strong).2.table = 0 :: [] ∧
    (execute Unit (fun db _ => (EngineResult.rows [], db))
      { cons := { currentTerm := 0, role := NodeRole.Leader, log := [],
                  commitIndex := 0, lastApplied := 0 },
        table := [], proposals := [], db := (), nextId := 0 }
      "INSERT INTO t VALUES (1)" Consistency.Strong).2.db = () ∧
    (execute Unit (fun db _ => (EngineResult.rows [], db))
      { cons := { currentTerm := 0, role := NodeRole.Leader, log := [],
                  commitIndex := 0, lastApplied := 0 },
        table := [], proposals := [], db := (), nextId := 0 }
      "INSERT INTO t VALUES (1)" Consistency.Strong).1 =
      ExecOutcome.awaiting 0 :=
  C10_strong_default Unit (fun db _ => (EngineResult.rows [], db))
    { cons := { currentTerm := 0, role := NodeRole.Leader, log := [],
                commitIndex := 0, lastApplied := 0 },
      table := [], proposals := [], db := (), nextId := 0 }
    "INSERT INTO t VALUES (1)" Consistency.Strong (by decide)

theorem inv_init (n : Nat) : Inv (initState n) := by
  refine {
    votesTerm := ?_, voteCandTerm := ?_, leaderMaj := ?_, leaderGhost := ?_,
    leaderStable := ?_, leaderPos := ?_, candTerm := ?_, candSelfVote := ?_,
    entryLeader := ?_, logTermBound := ?_, logSorted := ?_, leaderSup := ?_,
    logMatch := ?_, snapSorted := ?_, voteUpToDate := ?_, tagsMono := ?_,
    tagPos := ?_, tagLeader := ?_, cgTermLe := ?_, cgBoundary := ?_,
    ackInv := ?_, quorumCovered := ?_, leaderCovered := ?_,
    entryCovered := ?_, nodeCommit := ?_, nodeCommitTag := ?_,
    appliedDef := ?_, appliedLe := ?_ }
  · intro t v h
    exact absurd rfl h
  · intro t v c L h
    exact absurd h (by simp [initState])
  · intro t c h
    exact absurd h (by simp [initState])
  · intro l h
    exact absurd h (by simp [initState])
  · intro t c h
    exact absurd h (by simp [initState])
  · intro t c h
    exact absurd h (by simp [initState])
  · intro v h
    exact absurd h (by simp [initState])
  · intro v h
    exact absurd h (by simp [initState])
  · intro a j e h
    exact absurd h (by simp [initState])
  · intro a j e h
    exact absurd h (by simp [initState])
  · intro a
    exact List.Pairwise.nil
  · intro l h
    exact absurd h (by simp [initState])
  · intro a b j ea eb ha
    exact absurd ha (by simp [initState])
  · intro t v c L h
    exact absurd h (by simp [initState])
  · intro t v c L h
    exact absurd h (by simp [initState])
  · intro i j hij hj
    exact absurd hj (by simp [initState])
  · intro j hj
    exact absurd hj (by simp [initState])
  · intro j hj
    exact absurd hj (by simp [initState])
  · intro j ce h
    exact absurd h (by simp [initState])
  · intro j ce h
    exact absurd h (by simp [initState])
  · intro j ce h
    exact absurd h (by simp [initState])
  · intro t c hmaj ht hrole k hk htags
    have hk0 : k = 0 := by
      have : (initState n).committed.length = 0 := rfl
      omega
    subst hk0
    exact covered_zero _ _
  · intro l hl k hk htags
    have hk0 : k = 0 := by
      have : (initState n).committed.length = 0 := rfl
      omega
    subst hk0
    exact covered_zero _ _
  · intro a p e h
    exact absurd h (by simp [initState])
  · intro a
    exact ⟨Nat.zero_le _, rfl, Nat.zero_le _⟩
  · intro a j hj
    exact absurd hj (by simp [initState])
  · intro a
    rfl
  · intro a
    exact Nat.le_refl _

theorem inv_timeoutEff {n : Nat} {s : GState n} (hInv : Inv s) (v : Fin n)
    (hrole : (s.node v).role ≠ NodeRole.Leader) : Inv (timeoutEff s v) := by
  set t' := (s.node v).currentTerm + 1 with ht'
  set s' := timeoutEff s v with hs'
  have hnodev : s'.node v =
      { s.node v with currentTerm := t', role := NodeRole.Candidate } := by
    rw [hs']
    unfold timeoutEff
    simp
  have hnodew : ∀ w, w ≠ v → s'.node w = s.node w := by
    intro w hw
    rw [hs']
    unfold timeoutEff
    simp [Function.update_noteq hw]
  have hvotes : ∀ u w, s'.votes u w =
      if u = t' ∧ w = v then some (v, (s.node v).log) else s.votes u w :=
    fun u w => rfl
  have hlead : s'.leaderOf = s.leaderOf := rfl
  have hcl : committedLog s' = committedLog s := rfl
  have htag : tagD s' = tagD s := rfl
  have hcomm : s'.committed = s.committed := rfl
  have hcov : ∀ L k, covered s' L k = covered s L k := fun L k => rfl
  have hlog : ∀ w, (s'.node w).log = (s.node w).log := by
    intro w
    by_cases hw : w = v
    · subst hw
      rw [hnodev]
    · rw [hnodew w hw]
  have hci : ∀ w, (s'.node w).commitIndex = (s.node w).commitIndex := by
    intro w
    by_cases hw : w = v
    · subst hw
      rw [hnodev]
    · rw [hnodew w hw]
  have hla : ∀ w, (s'.node w).lastApplied = (s.node w).lastApplied := by
    intro w
    by_cases hw : w = v
    · subst hw
      rw [hnodev]
    · rw [hnodew w hw]
  have htermmono : ∀ w, (s.node w).currentTerm ≤ (s'.node w).currentTerm := by
    intro w
    by_cases hw : w = v
    · subst hw
      rw [hnodev]
      simp [ht']
    · rw [hnodew w hw]
  have htermv : (s'.node v).currentTerm = t' := by rw [hnodev]
  have hterm_eq : ∀ w, w ≠ v →
      (s'.node w).currentTerm = (s.node w).currentTerm := by
    intro w hw
    rw [hnodew w hw]
  have hrole_eq : ∀ w, w ≠ v → (s'.node w).role = (s.node w).role := by
    intro w hw
    rw [hnodew w hw]
  have hrolev : (s'.node v).role = NodeRole.Candidate := by rw [hnodev]
  have hnew_none : s.votes t' v = none := by
    cases h : s.votes t' v with
    | none => rfl
    | some p =>
        have := hInv.votesTerm t' v (by rw [h]; simp)
        omega
  have hvf : ∀ u w, ¬(u = t' ∧ w = v) → voteFor s' u w = voteFor s u w := by
    intro u w h
    unfold voteFor
    rw [hvotes u w, if_neg h]
  have hvf_new : voteFor s' t' v = some v := by
    unfold voteFor
    rw [hvotes t' v, if_pos ⟨rfl, rfl⟩]
    rfl
  have hvf_old_none : voteFor s t' v = none := by
    unfold voteFor
    rw [hnew_none]
    rfl
  have hvoters_eq : ∀ u c, ¬(u = t' ∧ c = v) → voters s' u c = voters s u c := by
    intro u c h
    ext w
    rw [mem_voters, mem_voters]
    by_cases hw : u = t' ∧ w = v
    · obtain ⟨hu, hwv⟩ := hw
      subst hu
      subst hwv
      rw [hvf_new, hvf_old_none]
      constructor
      · intro hh
        have hvc := Option.some.inj hh
        exact absurd ⟨rfl, hvc.symm⟩ h
      · intro hh
        cases hh
    · rw [hvf u w hw]
  have hvoters_sub : ∀ u c, voters s u c ⊆ voters s' u c := by
    intro u c w hw
    rw [mem_voters] at hw ⊢
    by_cases hcase : u = t' ∧ w = v
    · obtain ⟨hu, hwv⟩ := hcase
      subst hu
      subst hwv
      rw [hvf_old_none] at hw
      cases hw
    · rw [hvf u w hcase]
      exact hw
  refine {
    votesTerm := ?_, voteCandTerm := ?_, leaderMaj := ?_, leaderGhost := ?_,
    leaderStable := ?_, leaderPos := ?_, candTerm := ?_, candSelfVote := ?_,
    entryLeader := ?_, logTermBound := ?_, logSorted := ?_, leaderSup := ?_,
    logMatch := ?_, snapSorted := ?_, voteUpToDate := ?_, tagsMono := ?_,
    tagPos := ?_, tagLeader := ?_, cgTermLe := ?_, cgBoundary := ?_,
    ackInv := ?_, quorumCovered := ?_, leaderCovered := ?_,
    entryCovered := ?_, nodeCommit := ?_, nodeCommitTag := ?_,
    appliedDef := ?_, appliedLe := ?_ }
  · intro u w h
    rw [hvotes u w] at h
    by_cases hc : u = t' ∧ w = v
    · obtain ⟨hu, hw⟩ := hc
      subst hu
      subst hw
      rw [htermv]
    · rw [if_neg hc] at h
      exact le_trans (hInv.votesTerm u w h) (htermmono w)
  · intro u w c L h
    rw [hvotes u w] at h
    by_cases hc : u = t' ∧ w = v
    · rw [if_pos hc] at h
      have hp := Option.some.inj h
      have hcv : v = c := congrArg Prod.fst hp
      rw [← hcv, htermv, hc.1]
    · rw [if_neg hc] at h
      exact le_trans (hInv.voteCandTerm u w c L h) (htermmono c)
  · intro u c h
    rw [hlead] at h
    exact maj_mono (hvoters_sub u c) (hInv.leaderMaj u c h)
  · intro l h
    have hlv : l ≠ v := by
      intro he
      subst he
      rw [hrolev] at h
      cases h
    rw [hlead, hterm_eq l hlv]
    exact hInv.leaderGhost l (by rw [← hrole_eq l hlv]; exact h)
  · intro u c h
    rw [hlead] at h
    have hst := hInv.leaderStable u c h
    refine ⟨le_trans hst.1 (htermmono c), ?_⟩
    intro he
    by_cases hcv : c = v
    · subst hcv
      rw [htermv] at he
      omega
    · rw [hterm_eq c hcv] at he
      rw [hrole_eq c hcv]
      exact hst.2 he
  · intro u c h
    rw [hlead] at h
    exact hInv.leaderPos u c h
  · intro w h
    by_cases hw : w = v
    · subst hw
      rw [htermv]
      omega
    · rw [hterm_eq w hw]
      exact hInv.candTerm w (by rw [← hrole_eq w hw]; exact h)
  · intro w h
    by_cases hw : w = v
    · subst hw
      rw [htermv]
      exact hvf_new
    · rw [hterm_eq w hw]
      have hcand : (s.node w).role = NodeRole.Candidate := by
        rw [← hrole_eq w hw]
        exact h
      have hold := hInv.candSelfVote w hcand
      have hne : ¬((s.node w).currentTerm = t' ∧ w = v) := fun hc => hw hc.2
      rw [hvf _ w hne]
      exact hold
  · intro a j e h
    rw [hlog a] at h
    rw [hlead]
    exact hInv.entryLeader a j e h
  · intro a j e h
    rw [hlog a] at h
    exact le_trans (hInv.logTermBound a j e h) (htermmono a)
  · intro a
    rw [hlog a]
    exact hInv.logSorted a
  · intro l hll a j e he hterm
    have hlv : l ≠ v := by
      intro heq
      subst heq
      rw [hrolev] at hll
      cases hll
    rw [hlog a] at he
    rw [hterm_eq l hlv] at hterm
    rw [hlog a, hlog l]
    exact hInv.leaderSup l (by rw [← hrole_eq l hlv]; exact hll) a j e he hterm
  · intro a b j ea eb ha hb he
    rw [hlog a] at ha
    rw [hlog b] at hb
    rw [hlog a, hlog b]
    exact hInv.logMatch a b j ea eb ha hb he
  · intro u w c L h
    rw [hvotes u w] at h
    by_cases hc : u = t' ∧ w = v
    · rw [if_pos hc] at h
      have hp := Option.some.inj h
      have hL : (s.node v).log = L := congrArg Prod.snd hp
      rw [← hL]
      exact hInv.logSorted v
    · rw [if_neg hc] at h
      exact hInv.snapSorted u w c L h
  · intro u w c L h hct hcr
    rw [hvotes u w] at h
    by_cases hc : u = t' ∧ w = v
    · rw [if_pos hc] at h
      have hp := Option.some.inj h
      have hcv : v = c := congrArg Prod.fst hp
      have hL : (s.node v).log = L := congrArg Prod.snd hp
      rw [← hcv, hlog v, ← hL]
      exact upToDate_refl _
    · rw [if_neg hc] at h
      by_cases hcv : c = v
      · rw [hcv] at hct h
        rw [htermv] at hct
        have := hInv.voteCandTerm u w v L h
        omega
      · rw [hterm_eq c hcv] at hct
        rw [hrole_eq c hcv] at hcr
        rw [hlog c]
        exact hInv.voteUpToDate u w c L h hct hcr
  · rw [htag, hcomm]
    exact hInv.tagsMono
  · rw [htag, hcomm]
    exact hInv.tagPos
  · rw [htag, hcomm, hlead]
    exact hInv.tagLeader
  · rw [hcomm]
    exact hInv.cgTermLe
  · rw [hcomm]
    exact hInv.cgBoundary
  · intro j ce h
    rw [hcomm] at h
    have hai := hInv.ackInv j ce h
    refine ⟨hai.1, ?_⟩
    intro w hw
    have hw' := hai.2 w hw
    refine ⟨?_, le_trans hw'.2.1 (htermmono w), ?_⟩
    · rw [hcov, hlog w]
      exact hw'.1
    · intro u c L hu hvt
      rw [hvotes u w] at hvt
      by_cases hc : u = t' ∧ w = v
      · rw [if_pos hc] at hvt
        have hp := Option.some.inj hvt
        have hL : (s.node v).log = L := congrArg Prod.snd hp
        rw [hcov, ← hL, ← hc.2]
        exact hw'.1
      · rw [if_neg hc] at hvt
        rw [hcov]
        exact hw'.2.2 u c L hu hvt
  · intro u c hmaj hct hcr k hk htags
    rw [hcomm] at hk
    rw [htag] at htags
    rw [hcov, hlog c]
    by_cases hcase : u = t' ∧ c = v
    · obtain ⟨hu, hcv⟩ := hcase
      rcases Nat.eq_zero_or_pos k with hk0 | hkpos
      · subst hk0
        exact covered_zero _ _
      · have hj : k - 1 < s.committed.length := by omega
        have hce : ∃ ce, s.committed.get? (k - 1) = some ce :=
          ⟨_, List.get?_eq_get hj⟩
        obtain ⟨ce, hce⟩ := hce
        have hai := hInv.ackInv (k - 1) ce hce
        rw [hu, hcv] at hmaj
        obtain ⟨u₁, hu₁a, hu₁b⟩ := maj_inter hai.1 hmaj
        rw [mem_voters] at hu₁b
        rw [hcv]
        by_cases hu₁v : u₁ = v
        · have hcov1 := (hai.2 u₁ hu₁a).1
          rw [hu₁v] at hcov1
          have hk1 : k - 1 + 1 = k := by omega
          rw [hk1] at hcov1
          exact hcov1
        · rw [hvf t' u₁ (fun hcc => hu₁v hcc.2)] at hu₁b
          obtain ⟨L, hL⟩ := (voteFor_eq_some s t' u₁ v).mp hu₁b
          have hle := hInv.voteCandTerm t' u₁ v L hL
          exact absurd hle (by omega)
    · rw [hvoters_eq u c hcase] at hmaj
      by_cases hcv : c = v
      · rw [hcv] at hct
        rw [htermv] at hct
        exact absurd ⟨hct.symm, hcv⟩ hcase
      · rw [hterm_eq c hcv] at hct
        rw [hrole_eq c hcv] at hcr
        exact hInv.quorumCovered u c hmaj hct hcr k hk htags
  · intro l hll k hk htags
    have hlv : l ≠ v := by
      intro heq
      subst heq
      rw [hrolev] at hll
      cases hll
    rw [hcomm] at hk
    rw [htag] at htags
    rw [hcov, hlog l]
    rw [hterm_eq l hlv] at htags
    exact hInv.leaderCovered l (by rw [← hrole_eq l hlv]; exact hll) k hk htags
  · intro a p e h k hk
    rw [hlog a] at h
    rw [hcomm] at hk
    have hec := hInv.entryCovered a p e h k hk
    rw [htag]
    constructor
    · intro hx
      have := hec.1 hx
      rw [hlog a, hcl]
      exact this
    · intro hx hy
      have := hec.2 hx hy
      rw [hlog a, hcl]
      exact this
  · intro a
    rw [hci a, hlog a, hcl, hcomm]
    exact hInv.nodeCommit a
  · intro a j hj
    rw [hci a] at hj
    rw [htag]
    exact le_trans (hInv.nodeCommitTag a j hj) (htermmono a)
  · intro a
    have : s'.applied = s.applied := rfl
    rw [this, hlog a, hla a]
    exact hInv.appliedDef a
  · intro a
    rw [hla a, hci a]
    exact hInv.appliedLe a

theorem inv_grantVoteEff {n : Nat} {s : GState n} (hInv : Inv s) (v c : Fin n)
    (hc : (s.node c).role = NodeRole.Candidate)
    (hv : (s.node v).currentTerm < (s.node c).currentTerm ∨
      ((s.node v).currentTerm = (s.node c).currentTerm ∧
        (voteFor s (s.node c).currentTerm v = none ∨
          voteFor s (s.node c).currentTerm v = some c)))
    (hupd : upToDate (s.node c).log (s.node v).log) :
    Inv (grantVoteEff s v c) := by
  set t₀ := (s.node c).currentTerm with ht₀
  set s' := grantVoteEff s v c with hs'
  have hnodev : s'.node v =
      { s.node v with
        currentTerm := t₀,
        role := (if (s.node v).currentTerm < t₀ then NodeRole.Follower
                 else (s.node v).role) } := by
    rw [hs']
    unfold grantVoteEff
    simp
  have hnodew : ∀ w, w ≠ v → s'.node w = s.node w := by
    intro w hw
    rw [hs']
    unfold grantVoteEff
    simp [Function.update_noteq hw]
  have hvotes : ∀ u w, s'.votes u w =
      if u = t₀ ∧ w = v then some (c, (s.node v).log) else s.votes u w :=
    fun u w => rfl
  have hlead : s'.leaderOf = s.leaderOf := rfl
  have hcl : committedLog s' = committedLog s := rfl
  have htag : tagD s' = tagD s := rfl
  have hcomm : s'.committed = s.committed := rfl
  have hcov : ∀ L k, covered s' L k = covered s L k := fun L k => rfl
  have happlied : s'.applied = s.applied := rfl
  have hvle : (s.node v).currentTerm ≤ t₀ := by
    rcases hv with h | h
    · omega
    · omega
  have hlog : ∀ w, (s'.node w).log = (s.node w).log := by
    intro w
    by_cases hw : w = v
    · subst hw
      rw [hnodev]
    · rw [hnodew w hw]
  have hci : ∀ w, (s'.node w).commitIndex = (s.node w).commitIndex := by
    intro w
    by_cases hw : w = v
    · subst hw
      rw [hnodev]
    · rw [hnodew w hw]
  have hla : ∀ w, (s'.node w).lastApplied = (s.node w).lastApplied := by
    intro w
    by_cases hw : w = v
    · subst hw
      rw [hnodev]
    · rw [hnodew w hw]
  have htermv : (s'.node v).currentTerm = t₀ := by rw [hnodev]
  have htermmono : ∀ w, (s.node w).currentTerm ≤ (s'.node w).currentTerm := by
    intro w
    by_cases hw : w = v
    · subst hw
      rw [htermv]
      exact hvle
    · rw [hnodew w hw]
  have hterm_eq : ∀ w, w ≠ v →
      (s'.node w).currentTerm = (s.node w).currentTerm := by
    intro w hw
    rw [hnodew w hw]
  have hrole_eq : ∀ w, w ≠ v → (s'.node w).role = (s.node w).role := by
    intro w hw
    rw [hnodew w hw]
  have hrolev : (s'.node v).role =
      if (s.node v).currentTerm < t₀ then NodeRole.Follower
      else (s.node v).role := by
    rw [hnodev]
  have hrv_keep : ∀ r, r ≠ NodeRole.Follower → (s'.node v).role = r →
      (s.node v).role = r ∧ (s.node v).currentTerm = t₀ := by
    intro r hr h
    rw [hrolev] at h
    by_cases hlt : (s.node v).currentTerm < t₀
    · rw [if_pos hlt] at h
      exact absurd h.symm hr
    · rw [if_neg hlt] at h
      exact ⟨h, by omega⟩
  have hvold : voteFor s t₀ v = none ∨ voteFor s t₀ v = some c := by
    rcases hv with h | h
    · left
      unfold voteFor
      cases hvv : s.votes t₀ v with
      | none => rfl
      | some p =>
          have := hInv.votesTerm t₀ v (by rw [hvv]; simp)
          omega
    · exact h.2
  have hvf : ∀ u w, ¬(u = t₀ ∧ w = v) → voteFor s' u w = voteFor s u w := by
    intro u w h
    unfold voteFor
    rw [hvotes u w, if_neg h]
  have hvf_new : voteFor s' t₀ v = some c := by
    unfold voteFor
    rw [hvotes t₀ v, if_pos ⟨rfl, rfl⟩]
    rfl
  have hvoters_sub : ∀ u c', voters s u c' ⊆ voters s' u c' := by
    intro u c' w hw
    rw [mem_voters] at hw ⊢
    by_cases hcase : u = t₀ ∧ w = v
    · rw [hcase.1, hcase.2] at hw
      rcases hvold with hn | hs
      · rw [hn] at hw
        cases hw
      · rw [hs] at hw
        have hcc : c = c' := Option.some.inj hw
        rw [hcase.1, hcase.2, hvf_new, hcc]
    · rw [hvf u w hcase]
      exact hw
  have hvoters_eq : ∀ u c', ¬(u = t₀ ∧ c' = c) →
      voters s' u c' = voters s u c' := by
    intro u c' h
    ext w
    rw [mem_voters, mem_voters]
    by_cases hw : u = t₀ ∧ w = v
    · rw [hw.1, hw.2, hvf_new]
      constructor
      · intro hh
        exact absurd ⟨hw.1, (Option.some.inj hh).symm⟩ h
      · intro hh
        rcases hvold with hn | hs
        · rw [hn] at hh
          cases hh
        · rw [hs] at hh
          exact hh
    · rw [hvf u w hw]
  refine {
    votesTerm := ?_, voteCandTerm := ?_, leaderMaj := ?_, leaderGhost := ?_,
    leaderStable := ?_, leaderPos := ?_, candTerm := ?_, candSelfVote := ?_,
    entryLeader := ?_, logTermBound := ?_, logSorted := ?_, leaderSup := ?_,
    logMatch := ?_, snapSorted := ?_, voteUpToDate := ?_, tagsMono := ?_,
    tagPos := ?_, tagLeader := ?_, cgTermLe := ?_, cgBoundary := ?_,
    ackInv := ?_, quorumCovered := ?_, leaderCovered := ?_,
    entryCovered := ?_, nodeCommit := ?_, nodeCommitTag := ?_,
    appliedDef := ?_, appliedLe := ?_ }
  · intro u w h
    rw [hvotes u w] at h
    by_cases hcase : u = t₀ ∧ w = v
    · rw [hcase.1, hcase.2, htermv]
    · rw [if_neg hcase] at h
      exact le_trans (hInv.votesTerm u w h) (htermmono w)
  · intro u w c' L h
    rw [hvotes u w] at h
    by_cases hcase : u = t₀ ∧ w = v
    · rw [if_pos hcase] at h
      have hp := Option.some.inj h
      have hcc : c = c' := congrArg Prod.fst hp
      rw [← hcc, hcase.1]
      exact htermmono c
    · rw [if_neg hcase] at h
      exact le_trans (hInv.voteCandTerm u w c' L h) (htermmono c')
  · intro u c' h
    rw [hlead] at h
    exact maj_mono (hvoters_sub u c') (hInv.leaderMaj u c' h)
  · intro l h
    by_cases hlv : l = v
    · rw [hlv] at h ⊢
      have hk := hrv_keep NodeRole.Leader (by simp) h
      rw [hlead, htermv, ← hk.2]
      exact hInv.leaderGhost v hk.1
    · rw [hlead, hterm_eq l hlv]
      exact hInv.leaderGhost l (by rw [← hrole_eq l hlv]; exact h)
  · intro u c' h
    rw [hlead] at h
    have hst := hInv.leaderStable u c' h
    refine ⟨le_trans hst.1 (htermmono c'), ?_⟩
    intro he
    by_cases hcv : c' = v
    · rw [hcv] at he ⊢
      rw [htermv] at he
      rw [hcv] at hst
      have hterm : (s.node v).currentTerm = t₀ := by omega
      rw [hrolev, if_neg (by omega)]
      exact hst.2 (by omega)
    · rw [hterm_eq c' hcv] at he
      rw [hrole_eq c' hcv]
      exact hst.2 he
  · intro u c' h
    rw [hlead] at h
    exact hInv.leaderPos u c' h
  · intro w h
    by_cases hw : w = v
    · rw [hw] at h ⊢
      have hk := hrv_keep NodeRole.Candidate (by simp) h
      rw [htermv, ← hk.2]
      exact hInv.candTerm v hk.1
    · rw [hterm_eq w hw]
      exact hInv.candTerm w (by rw [← hrole_eq w hw]; exact h)
  · intro w h
    by_cases hw : w = v
    · rw [hw] at h ⊢
      have hk := hrv_keep NodeRole.Candidate (by simp) h
      have hself := hInv.candSelfVote v hk.1
      rw [hk.2] at hself
      have hcv : c = v := by
        rcases hvold with hn | hs
        · rw [hn] at hself
          cases hself
        · rw [hs] at hself
          exact Option.some.inj hself
      rw [htermv, hvf_new, hcv]
    · have hcand : (s.node w).role = NodeRole.Candidate := by
        rw [← hrole_eq w hw]
        exact h
      have hold := hInv.candSelfVote w hcand
      rw [hterm_eq w hw]
      rw [hvf _ w (fun hcc => hw hcc.2)]
      exact hold
  · intro a j e h
    rw [hlog a] at h
    rw [hlead]
    exact hInv.entryLeader a j e h
  · intro a j e h
    rw [hlog a] at h
    exact le_trans (hInv.logTermBound a j e h) (htermmono a)
  · intro a
    rw [hlog a]
    exact hInv.logSorted a
  · intro l hll a j e he hterm
    rw [hlog a] at he
    rw [hlog a, hlog l]
    by_cases hlv : l = v
    · rw [hlv] at hll hterm ⊢
      have hk := hrv_keep NodeRole.Leader (by simp) hll
      rw [htermv, ← hk.2] at hterm
      exact hInv.leaderSup v hk.1 a j e he hterm
    · rw [hterm_eq l hlv] at hterm
      exact hInv.leaderSup l (by rw [← hrole_eq l hlv]; exact hll) a j e he hterm
  · intro a b j ea eb ha hb he
    rw [hlog a] at ha
    rw [hlog b] at hb
    rw [hlog a, hlog b]
    exact hInv.logMatch a b j ea eb ha hb he
  · intro u w c' L h
    rw [hvotes u w] at h
    by_cases hcase : u = t₀ ∧ w = v
    · rw [if_pos hcase] at h
      have hp := Option.some.inj h
      have hL : (s.node v).log = L := congrArg Prod.snd hp
      rw [← hL]
      exact hInv.logSorted v
    · rw [if_neg hcase] at h
      exact hInv.snapSorted u w c' L h
  · intro u w c' L h hct hcr
    rw [hvotes u w] at h
    by_cases hcase : u = t₀ ∧ w = v
    · rw [if_pos hcase] at h
      have hp := Option.some.inj h
      have hcc : c = c' := congrArg Prod.fst hp
      have hL : (s.node v).log = L := congrArg Prod.snd hp
      rw [← hcc, hlog c, ← hL]
      exact hupd
    · rw [if_neg hcase] at h
      by_cases hcv : c' = v
      · rw [hcv] at hct hcr h ⊢
        rw [htermv] at hct
        have hk := hrv_keep NodeRole.Candidate (by simp) hcr
        rw [hlog v]
        exact hInv.voteUpToDate u w v L h (by omega) hk.1
      · rw [hterm_eq c' hcv] at hct
        rw [hrole_eq c' hcv] at hcr
        rw [hlog c']
        exact hInv.voteUpToDate u w c' L h hct hcr
  · rw [htag, hcomm]
    exact hInv.tagsMono
  · rw [htag, hcomm]
    exact hInv.tagPos
  · rw [htag, hcomm, hlead]
    exact hInv.tagLeader
  · rw [hcomm]
    exact hInv.cgTermLe
  · rw [hcomm]
    exact hInv.cgBoundary
  · intro j ce h
    rw [hcomm] at h
    have hai := hInv.ackInv j ce h
    refine ⟨hai.1, ?_⟩
    intro w hw
    have hw' := hai.2 w hw
    refine ⟨?_, le_trans hw'.2.1 (htermmono w), ?_⟩
    · rw [hcov, hlog w]
      exact hw'.1
    · intro u c' L hu hvt
      rw [hvotes u w] at hvt
      by_cases hcase : u = t₀ ∧ w = v
      · rw [if_pos hcase] at hvt
        have hp := Option.some.inj hvt
        have hL : (s.node v).log = L := congrArg Prod.snd hp
        rw [hcov, ← hL, ← hcase.2]
        exact hw'.1
      · rw [if_neg hcase] at hvt
        rw [hcov]
        exact hw'.2.2 u c' L hu hvt
  · intro u c' hmaj hct hcr k hk htags
    rw [hcomm] at hk
    rw [htag] at htags
    rw [hcov, hlog c']
    by_cases hcase : u = t₀ ∧ c' = c
    · -- the voter set extended by this vote: re-establish coverage of the
      -- candidate's log over everything committed before its term
      obtain ⟨hu, hcc⟩ := hcase
      rw [hcc]
      rw [hu, hcc] at hmaj
      set km := tagsBelow s t₀ with hkm
      have hkmlen : km ≤ s.committed.length := takeWhile_length_le _ _
      have hPkm : ∀ j, j < km → tagD s j < t₀ := by
        intro j hj
        obtain ⟨ce, hce, hp⟩ := takeWhile_get?_sat _ _ j hj
        rw [tagD_eq s hce]
        exact of_decide_eq_true hp
      have hbd : km < s.committed.length → t₀ ≤ tagD s km := by
        intro hlt
        obtain ⟨ce, hce, hp⟩ := takeWhile_boundary _ _ hlt
        have hce' : s.committed.get? km = some ce := hce
        rw [tagD_eq s hce']
        have := of_decide_eq_false hp
        omega
      have hkkm : k ≤ km := by
        by_contra hkk
        push_neg at hkk
        have h1 : km < s.committed.length := lt_of_lt_of_le hkk hk
        have h2 := hbd h1
        have h3 := htags km (by omega)
        rw [hu] at h3
        omega
      have hcovc : covered s (s.node c).log km := by
        rcases Nat.eq_zero_or_pos km with h0 | hpos
        · rw [h0]
          exact covered_zero _ _
        · have hj : km - 1 < s.committed.length := by omega
          obtain ⟨ce, hce⟩ : ∃ ce, s.committed.get? (km - 1) = some ce :=
            ⟨_, List.get?_eq_get hj⟩
          have hu0 : tagD s (km - 1) < t₀ := hPkm (km - 1) (by omega)
          have hboundary : ce.entry.term = ce.ctag := by
            apply hInv.cgBoundary (km - 1) ce hce
            intro ce' hce'
            have hkm1 : km - 1 + 1 = km := by omega
            rw [hkm1] at hce'
            have hkm_lt : km < s.committed.length :=
              (List.get?_eq_some.mp hce').1
            have hge := hbd hkm_lt
            rw [tagD_eq s hce'] at hge
            intro heq
            rw [heq] at hge
            rw [tagD_eq s hce] at hu0
            omega
          have hai := hInv.ackInv (km - 1) ce hce
          obtain ⟨v₁, hv₁a, hv₁b⟩ := maj_inter hai.1 hmaj
          rw [mem_voters] at hv₁b
          have hkm1 : km - 1 + 1 = km := by omega
          -- extract the voter's snapshot, its coverage and the up-to-date
          -- comparison with the candidate's current log
          have hmain : ∃ L, covered s L km ∧ upToDate (s.node c).log L ∧
              TermsSorted L := by
            by_cases hv₁v : v₁ = v
            · refine ⟨(s.node v).log, ?_, hupd, hInv.logSorted v⟩
              have := (hai.2 v₁ hv₁a).1
              rw [hkm1] at this
              rw [← hv₁v]
              exact this
            · rw [hvf t₀ v₁ (fun hcc' => hv₁v hcc'.2)] at hv₁b
              obtain ⟨L, hL⟩ := (voteFor_eq_some s t₀ v₁ c).mp hv₁b
              have hacks := (hai.2 v₁ hv₁a).2.2 t₀ c L
                (by rw [tagD_eq s hce] at hu0; omega) hL
              rw [hkm1] at hacks
              exact ⟨L, hacks,
                hInv.voteUpToDate t₀ v₁ c L hL (by rw [← ht₀]) hc,
                hInv.snapSorted t₀ v₁ c L hL⟩
          obtain ⟨L, hLcov, hLupd, hLsort⟩ := hmain
          have hLlen : km ≤ L.length := hLcov.1
          have hLget : L.get? (km - 1) = some ce.entry := by
            rw [covered_get hLcov (by omega)]
            exact committedLog_get? s hce
          have hu1 : 1 ≤ ce.ctag := by
            have := hInv.tagPos (km - 1) hj
            rw [tagD_eq s hce] at this
            exact this
          have hLlast : ce.ctag ≤ lastTerm L := by
            rw [← hboundary]
            exact term_le_lastTerm hLsort hLget
          have htagsle : ∀ j, j < km → tagD s j ≤ ce.ctag := by
            intro j hjlt
            have := hInv.tagsMono j (km - 1) (by omega) hj
            rw [tagD_eq s hce] at this
            exact this
          rcases hLupd with hstrict | heq
          · -- the candidate's last entry has a strictly later term
            have hwpos : 1 ≤ lastTerm (s.node c).log := by omega
            have hcne := ne_nil_of_lastTerm_pos hwpos
            obtain ⟨eq, heq?, heqterm⟩ := lastTerm_get? hcne
            have hec := hInv.entryCovered c ((s.node c).log.length - 1) eq
              heq? km hkmlen
            have hcovkm := hec.1 (by
              intro j hjlt
              have := htagsle j hjlt
              omega)
            refine ⟨?_, hcovkm.2⟩
            have hlenpos : 1 ≤ (s.node c).log.length := by
              cases hll : (s.node c).log with
              | nil => exact absurd hll hcne
              | cons x xs => simp [hll]
            omega
          · -- equal last terms: the voter's snapshot is no longer than the
            -- candidate's log
            have hwpos : 1 ≤ lastTerm (s.node c).log := by omega
            have hcne := ne_nil_of_lastTerm_pos hwpos
            obtain ⟨eq, heq?, heqterm⟩ := lastTerm_get? hcne
            have hec := hInv.entryCovered c ((s.node c).log.length - 1) eq
              heq? km hkmlen
            have hlenpos : 1 ≤ (s.node c).log.length := by
              cases hll : (s.node c).log with
              | nil => exact absurd hll hcne
              | cons x xs => simp [hll]
            have hklen : km ≤ (s.node c).log.length := by
              have := heq.2
              omega
            have htake := hec.2 (by omega) (by
              intro j hjlt
              have := htagsle j hjlt
              omega)
            exact ⟨hklen, htake⟩
      exact covered_mono hcovc hkkm
    · rw [hvoters_eq u c' hcase] at hmaj
      by_cases hcv : c' = v
      · rw [hcv] at hct hcr ⊢
        rw [htermv] at hct
        have hkeep : (s.node v).role = NodeRole.Candidate ∨
            (s.node v).role = NodeRole.Leader := by
          rcases hcr with hx | hx
          · exact Or.inl (hrv_keep NodeRole.Candidate (by simp) hx).1
          · exact Or.inr (hrv_keep NodeRole.Leader (by simp) hx).1
        have hterm : (s.node v).currentTerm = t₀ := by
          rcases hcr with hx | hx
          · exact (hrv_keep NodeRole.Candidate (by simp) hx).2
          · exact (hrv_keep NodeRole.Leader (by simp) hx).2
        rw [hcv] at hmaj
        exact hInv.quorumCovered u v hmaj (by omega) hkeep k hk htags
      · rw [hterm_eq c' hcv] at hct
        rw [hrole_eq c' hcv] at hcr
        exact hInv.quorumCovered u c' hmaj hct hcr k hk htags
  · intro l hll k hk htags
    rw [hcomm] at hk
    rw [htag] at htags
    rw [hcov, hlog l]
    by_cases hlv : l = v
    · rw [hlv] at hll htags ⊢
      have hk' := hrv_keep NodeRole.Leader (by simp) hll
      rw [htermv, ← hk'.2] at htags
      exact hInv.leaderCovered v hk'.1 k hk htags
    · rw [hterm_eq l hlv] at htags
      exact hInv.leaderCovered l (by rw [← hrole_eq l hlv]; exact hll) k hk htags
  · intro a p e h k hk
    rw [hlog a] at h
    rw [hcomm] at hk
    have hec := hInv.entryCovered a p e h k hk
    rw [htag]
    constructor
    · intro hx
      have := hec.1 hx
      rw [hlog a, hcl]
      exact this
    · intro hx hy
      have := hec.2 hx hy
      rw [hlog a, hcl]
      exact this
  · intro a
    rw [hci a, hlog a, hcl, hcomm]
    exact hInv.nodeCommit a
  · intro a j hj
    rw [hci a] at hj
    rw [htag]
    exact le_trans (hInv.nodeCommitTag a j hj) (htermmono a)
  · intro a
    rw [happlied, hlog a, hla a]
    exact hInv.appliedDef a
  · intro a
    rw [hla a, hci a]
    exact hInv.appliedLe a

theorem inv_becomeLeaderEff {n : Nat} {s : GState n} (hInv : Inv s)
    (c : Fin n) (S : Finset (Fin n))
    (hc : (s.node c).role = NodeRole.Candidate)
    (hmaj : IsMajority S) (hself : c ∈ S)
    (hvS : ∀ v ∈ S, voteFor s ((s.node c).currentTerm) v = some c) :
    Inv (becomeLeaderEff s c) := by
  set t₀ := (s.node c).currentTerm with ht₀
  set s' := becomeLeaderEff s c with hs'
  have hnodec : s'.node c = { s.node c with role := NodeRole.Leader } := by
    rw [hs']
    unfold becomeLeaderEff
    simp
  have hnodew : ∀ w, w ≠ c → s'.node w = s.node w := by
    intro w hw
    rw [hs']
    unfold becomeLeaderEff
    simp [Function.update_noteq hw]
  have hvotes : s'.votes = s.votes := rfl
  have hlead : ∀ u, s'.leaderOf u =
      if u = t₀ then some c else s.leaderOf u := fun u => rfl
  have hcl : committedLog s' = committedLog s := rfl
  have htag : tagD s' = tagD s := rfl
  have hcomm : s'.committed = s.committed := rfl
  have hcov : ∀ L k, covered s' L k = covered s L k := fun L k => rfl
  have happlied : s'.applied = s.applied := rfl
  have hvoters : ∀ u c', voters s' u c' = voters s u c' := by
    intro u c'
    unfold voters voteFor
    rw [hvotes]
  have hlog : ∀ w, (s'.node w).log = (s.node w).log := by
    intro w
    by_cases hw : w = c
    · subst hw
      rw [hnodec]
    · rw [hnodew w hw]
  have hci : ∀ w, (s'.node w).commitIndex = (s.node w).commitIndex := by
    intro w
    by_cases hw : w = c
    · subst hw
      rw [hnodec]
    · rw [hnodew w hw]
  have hla : ∀ w, (s'.node w).lastApplied = (s.node w).lastApplied := by
    intro w
    by_cases hw : w = c
    · subst hw
      rw [hnodec]
    · rw [hnodew w hw]
  have hterm : ∀ w, (s'.node w).currentTerm = (s.node w).currentTerm := by
    intro w
    by_cases hw : w = c
    · subst hw
      rw [hnodec]
    · rw [hnodew w hw]
  have hrolec : (s'.node c).role = NodeRole.Leader := by rw [hnodec]
  have hrole_eq : ∀ w, w ≠ c → (s'.node w).role = (s.node w).role := by
    intro w hw
    rw [hnodew w hw]
  have hmajc : IsMajority (voters s t₀ c) := by
    refine maj_mono ?_ hmaj
    intro w hw
    rw [mem_voters]
    exact hvS w hw
  have hnolead : s.leaderOf t₀ = none := candidate_no_leader hInv hc hmajc
  refine {
    votesTerm := ?_, voteCandTerm := ?_, leaderMaj := ?_, leaderGhost := ?_,
    leaderStable := ?_, leaderPos := ?_, candTerm := ?_, candSelfVote := ?_,
    entryLeader := ?_, logTermBound := ?_, logSorted := ?_, leaderSup := ?_,
    logMatch := ?_, snapSorted := ?_, voteUpToDate := ?_, tagsMono := ?_,
    tagPos := ?_, tagLeader := ?_, cgTermLe := ?_, cgBoundary := ?_,
    ackInv := ?_, quorumCovered := ?_, leaderCovered := ?_,
    entryCovered := ?_, nodeCommit := ?_, nodeCommitTag := ?_,
    appliedDef := ?_, appliedLe := ?_ }
  · intro u w h
    rw [hvotes] at h
    rw [hterm w]
    exact hInv.votesTerm u w h
  · intro u w c' L h
    rw [hvotes] at h
    rw [hterm c']
    exact hInv.voteCandTerm u w c' L h
  · intro u c' h
    rw [hlead u] at h
    rw [hvoters u c']
    by_cases hu : u = t₀
    · rw [if_pos hu] at h
      have hcc : c = c' := Option.some.inj h
      rw [← hcc, hu]
      exact hmajc
    · rw [if_neg hu] at h
      exact hInv.leaderMaj u c' h
  · intro l h
    rw [hlead, hterm l]
    by_cases hlc : l = c
    · rw [hlc, ← ht₀, if_pos rfl]
    · have hrl : (s.node l).role = NodeRole.Leader := by
        rw [← hrole_eq l hlc]
        exact h
      have := hInv.leaderGhost l hrl
      by_cases hu : (s.node l).currentTerm = t₀
      · rw [hu] at this
        rw [hnolead] at this
        cases this
      · rw [if_neg hu]
        exact this
  · intro u c' h
    rw [hlead u] at h
    rw [hterm c']
    by_cases hu : u = t₀
    · rw [if_pos hu] at h
      have hcc : c = c' := Option.some.inj h
      rw [← hcc, hu]
      refine ⟨le_refl _, ?_⟩
      intro
      exact hrolec
    · rw [if_neg hu] at h
      have hst := hInv.leaderStable u c' h
      refine ⟨hst.1, ?_⟩
      intro he
      by_cases hcc : c' = c
      · rw [hcc, ← ht₀] at he
        exact absurd he.symm hu
      · rw [hrole_eq c' hcc]
        exact hst.2 he
  · intro u c' h
    rw [hlead u] at h
    by_cases hu : u = t₀
    · rw [hu]
      exact hInv.candTerm c hc
    · rw [if_neg hu] at h
      exact hInv.leaderPos u c' h
  · intro w h
    have hwc : w ≠ c := by
      intro he
      rw [he, hrolec] at h
      cases h
    rw [hterm w]
    exact hInv.candTerm w (by rw [← hrole_eq w hwc]; exact h)
  · intro w h
    have hwc : w ≠ c := by
      intro he
      rw [he, hrolec] at h
      cases h
    have hcand : (s.node w).role = NodeRole.Candidate := by
      rw [← hrole_eq w hwc]
      exact h
    rw [hterm w]
    unfold voteFor
    rw [hvotes]
    exact hInv.candSelfVote w hcand
  · intro a j e h
    rw [hlog a] at h
    rw [hlead]
    by_cases hu : e.term = t₀
    · rw [if_pos hu]
      simp
    · rw [if_neg hu]
      exact hInv.entryLeader a j e h
  · intro a j e h
    rw [hlog a] at h
    rw [hterm a]
    exact hInv.logTermBound a j e h
  · intro a
    rw [hlog a]
    exact hInv.logSorted a
  · intro l hll a j e he hterm'
    rw [hlog a] at he
    rw [hlog a, hlog l]
    by_cases hlc : l = c
    · rw [hlc, hterm c, ← ht₀] at hterm'
      have := hInv.entryLeader a j e he
      rw [hterm', hnolead] at this
      exact absurd rfl this
    · rw [hterm l] at hterm'
      exact hInv.leaderSup l (by rw [← hrole_eq l hlc]; exact hll) a j e he hterm'
  · intro a b j ea eb ha hb he
    rw [hlog a] at ha
    rw [hlog b] at hb
    rw [hlog a, hlog b]
    exact hInv.logMatch a b j ea eb ha hb he
  · intro u w c' L h
    rw [hvotes] at h
    exact hInv.snapSorted u w c' L h
  · intro u w c' L h hct hcr
    rw [hvotes] at h
    have hcc : c' ≠ c := by
      intro he
      rw [he, hrolec] at hcr
      cases hcr
    rw [hterm c'] at hct
    rw [hrole_eq c' hcc] at hcr
    rw [hlog c']
    exact hInv.voteUpToDate u w c' L h hct hcr
  · rw [htag, hcomm]
    exact hInv.tagsMono
  · rw [htag, hcomm]
    exact hInv.tagPos
  · intro j hj
    rw [hcomm] at hj
    rw [htag, hlead]
    by_cases hu : tagD s j = t₀
    · rw [if_pos hu]
      simp
    · rw [if_neg hu]
      exact hInv.tagLeader j hj
  · rw [hcomm]
    exact hInv.cgTermLe
  · rw [hcomm]
    exact hInv.cgBoundary
  · intro j ce h
    rw [hcomm] at h
    have hai := hInv.ackInv j ce h
    refine ⟨hai.1, ?_⟩
    intro w hw
    have hw' := hai.2 w hw
    refine ⟨?_, ?_, ?_⟩
    · rw [hcov, hlog w]
      exact hw'.1
    · rw [hterm w]
      exact hw'.2.1
    · intro u c' L hu hvt
      rw [hvotes] at hvt
      rw [hcov]
      exact hw'.2.2 u c' L hu hvt
  · intro u c' hmaj' hct hcr k hk htags
    rw [hvoters u c'] at hmaj'
    rw [hcomm] at hk
    rw [htag] at htags
    rw [hcov, hlog c']
    rw [hterm c'] at hct
    by_cases hcc : c' = c
    · rw [hcc] at hct ⊢
      exact hInv.quorumCovered u c (hcc ▸ hmaj') hct (Or.inl hc) k hk htags
    · rw [hrole_eq c' hcc] at hcr
      exact hInv.quorumCovered u c' hmaj' hct hcr k hk htags
  · intro l hll k hk htags
    rw [hcomm] at hk
    rw [htag] at htags
    rw [hcov, hlog l]
    rw [hterm l] at htags
    by_cases hlc : l = c
    · rw [hlc] at htags
      rw [hlc]
      by_cases hstrict : ∀ j, j < k → tagD s j < t₀
      · exact hInv.quorumCovered t₀ c hmajc rfl (Or.inl hc) k hk hstrict
      · push_neg at hstrict
        obtain ⟨j, hjk, hjge⟩ := hstrict
        have hje := htags j hjk
        rw [← ht₀] at hje
        have hjeq : tagD s j = t₀ := by omega
        have := hInv.tagLeader j (by omega)
        rw [hjeq, hnolead] at this
        exact absurd rfl this
    · exact hInv.leaderCovered l (by rw [← hrole_eq l hlc]; exact hll) k hk htags
  · intro a p e h k hk
    rw [hlog a] at h
    rw [hcomm] at hk
    have hec := hInv.entryCovered a p e h k hk
    rw [htag]
    constructor
    · intro hx
      have := hec.1 hx
      rw [hlog a, hcl]
      exact this
    · intro hx hy
      have := hec.2 hx hy
      rw [hlog a, hcl]
      exact this
  · intro a
    rw [hci a, hlog a, hcl, hcomm]
    exact hInv.nodeCommit a
  · intro a j hj
    rw [hci a] at hj
    rw [htag, hterm a]
    exact hInv.nodeCommitTag a j hj
  · intro a
    rw [happlied, hlog a, hla a]
    exact hInv.appliedDef a
  · intro a
    rw [hla a, hci a]
    exact hInv.appliedLe a

theorem inv_clientRequestEff {n : Nat} {s : GState n} (hInv : Inv s)
    (l : Fin n) (cmd : StoreCommand)
    (hl : (s.node l).role = NodeRole.Leader) :
    Inv (clientRequestEff s l cmd) := by
  set t₀ := (s.node l).currentTerm with ht₀
  set e : LogEntry := { term := t₀, command := cmd } with he
  set P := (s.node l).log.length with hP
  set s' := clientRequestEff s l cmd with hs'
  have hnodel : s'.node l = { s.node l with log := (s.node l).log ++ [e] } := by
    rw [hs']
    unfold clientRequestEff
    simp
  have hnodew : ∀ w, w ≠ l → s'.node w = s.node w := by
    intro w hw
    rw [hs']
    unfold clientRequestEff
    simp [Function.update_noteq hw]
  have hvotes : s'.votes = s.votes := rfl
  have hlead : s'.leaderOf = s.leaderOf := rfl
  have hcl : committedLog s' = committedLog s := rfl
  have htag : tagD s' = tagD s := rfl
  have hcomm : s'.committed = s.committed := rfl
  have hcov : ∀ L k, covered s' L k = covered s L k := fun L k => rfl
  have happlied : s'.applied = s.applied := rfl
  have hvoters : ∀ u c', voters s' u c' = voters s u c' := fun u c' => rfl
  have hlogl : (s'.node l).log = (s.node l).log ++ [e] := by rw [hnodel]
  have hlogw : ∀ w, w ≠ l → (s'.node w).log = (s.node w).log := by
    intro w hw
    rw [hnodew w hw]
  have hterm : ∀ w, (s'.node w).currentTerm = (s.node w).currentTerm := by
    intro w
    by_cases hw : w = l
    · subst hw
      rw [hnodel]
    · rw [hnodew w hw]
  have hrole : ∀ w, (s'.node w).role = (s.node w).role := by
    intro w
    by_cases hw : w = l
    · subst hw
      rw [hnodel]
    · rw [hnodew w hw]
  have hci : ∀ w, (s'.node w).commitIndex = (s.node w).commitIndex := by
    intro w
    by_cases hw : w = l
    · subst hw
      rw [hnodel]
    · rw [hnodew w hw]
  have hla : ∀ w, (s'.node w).lastApplied = (s.node w).lastApplied := by
    intro w
    by_cases hw : w = l
    · subst hw
      rw [hnodel]
    · rw [hnodew w hw]
  have hlen : (s'.node l).log.length = P + 1 := by
    rw [hlogl]
    simp
  have htakel : ∀ k, k ≤ P → (s'.node l).log.take k = (s.node l).log.take k := by
    intro k hk
    rw [hlogl]
    exact List.take_append_of_le_length hk
  have htakea : ∀ a k, k ≤ (s.node a).log.length →
      (s'.node a).log.take k = (s.node a).log.take k := by
    intro a k hk
    by_cases ha : a = l
    · have hk' : k ≤ (s.node l).log.length := by
        rw [← ha]
        exact hk
      rw [ha]
      exact htakel k hk'
    · rw [hlogw a ha]
  have hgetold : ∀ a j e', (s.node a).log.get? j = some e' →
      (s'.node a).log.get? j = some e' := by
    intro a j e' hj
    by_cases ha : a = l
    · have hj' : (s.node l).log.get? j = some e' := by
        rw [← ha]
        exact hj
      rw [ha, hlogl]
      rw [List.get?_append (List.get?_eq_some.mp hj').1]
      exact hj'
    · rw [hlogw a ha]
      exact hj
  have hgetnew : ∀ a j e', (s'.node a).log.get? j = some e' →
      (a = l ∧ j = P ∧ e' = e) ∨ (s.node a).log.get? j = some e' := by
    intro a j e' hj
    by_cases ha : a = l
    · rw [ha, hlogl] at hj
      rcases Nat.lt_or_ge j P with hjP | hjP
      · right
        rw [List.get?_append (by rw [hP] at hjP; exact hjP)] at hj
        rw [ha]
        exact hj
      · left
        have hjlen : j < P + 1 := by
          have := (List.get?_eq_some.mp hj).1
          simpa [← hP] using this
        have hjeq : j = P := by omega
        refine ⟨ha, hjeq, ?_⟩
        rw [hjeq] at hj
        rw [hP] at hj
        rw [List.get?_concat_length] at hj
        exact (Option.some.inj hj).symm
    · right
      rw [hlogw a ha] at hj
      exact hj
  have hglead : s.leaderOf t₀ = some l := hInv.leaderGhost l hl
  refine {
    votesTerm := ?_, voteCandTerm := ?_, leaderMaj := ?_, leaderGhost := ?_,
    leaderStable := ?_, leaderPos := ?_, candTerm := ?_, candSelfVote := ?_,
    entryLeader := ?_, logTermBound := ?_, logSorted := ?_, leaderSup := ?_,
    logMatch := ?_, snapSorted := ?_, voteUpToDate := ?_, tagsMono := ?_,
    tagPos := ?_, tagLeader := ?_, cgTermLe := ?_, cgBoundary := ?_,
    ackInv := ?_, quorumCovered := ?_, leaderCovered := ?_,
    entryCovered := ?_, nodeCommit := ?_, nodeCommitTag := ?_,
    appliedDef := ?_, appliedLe := ?_ }
  · intro u w h
    rw [hterm w]
    exact hInv.votesTerm u w h
  · intro u w c' L h
    rw [hterm c']
    exact hInv.voteCandTerm u w c' L h
  · intro u c' h
    exact hInv.leaderMaj u c' h
  · intro l' h
    rw [hterm l']
    exact hInv.leaderGhost l' (by rw [← hrole l']; exact h)
  · intro u c' h
    have hst := hInv.leaderStable u c' h
    rw [hterm c']
    refine ⟨hst.1, ?_⟩
    intro h2
    rw [hrole c']
    exact hst.2 h2
  · intro u c' h
    exact hInv.leaderPos u c' h
  · intro w h
    rw [hterm w]
    exact hInv.candTerm w (by rw [← hrole w]; exact h)
  · intro w h
    rw [hterm w]
    exact hInv.candSelfVote w (by rw [← hrole w]; exact h)
  · intro a j e' h
    rcases hgetnew a j e' h with ⟨ha, hj, hee⟩ | hold
    · rw [hee]
      have het : s'.leaderOf e.term = some l := by
        rw [hlead]
        show s.leaderOf t₀ = some l
        exact hglead
      rw [het]
      simp
    · exact hInv.entryLeader a j e' hold
  · intro a j e' h
    rw [hterm a]
    rcases hgetnew a j e' h with ⟨ha, hj, hee⟩ | hold
    · rw [hee, he, ha]
    · exact hInv.logTermBound a j e' hold
  · intro a
    by_cases ha : a = l
    · rw [ha, hlogl]
      unfold TermsSorted
      rw [List.pairwise_append]
      refine ⟨hInv.logSorted l, List.pairwise_singleton _ _, ?_⟩
      intro x hx y hy
      have hye : y = e := by simpa using hy
      rw [hye, he]
      obtain ⟨j, hj⟩ := List.get?_of_mem hx
      exact hInv.logTermBound l j x hj
    · rw [hlogw a ha]
      exact hInv.logSorted a
  · intro l' hl' a j e' hae he'
    rw [hterm l'] at he'
    by_cases hll : l' = l
    · rcases hgetnew a j e' hae with ⟨ha, hj, hee⟩ | hold
      · rw [ha, hj, hll]
        constructor
        · rw [hlen]
          omega
        · rfl
      · have hsup := hInv.leaderSup l (by exact hl) a j e' hold (by
          rw [hll] at he'
          exact he')
        rw [hll]
        constructor
        · rw [hlen]
          omega
        · rw [htakea a (j + 1) (List.get?_eq_some.mp hold).1,
            htakel (j + 1) (by omega)]
          exact hsup.2
    · have hrl' : (s.node l').role = NodeRole.Leader := by
        rw [← hrole l']
        exact hl'
      rcases hgetnew a j e' hae with ⟨ha, hj, hee⟩ | hold
      · exfalso
        have het : e'.term = t₀ := by rw [hee, he]
        rw [het] at he'
        have := leader_unique hInv hrl' hl he'.symm
        exact hll this
      · have hsup := hInv.leaderSup l' hrl' a j e' hold he'
        rw [hlogw l' hll]
        refine ⟨hsup.1, ?_⟩
        rw [htakea a (j + 1) (List.get?_eq_some.mp hold).1]
        exact hsup.2
  · intro a b j ea eb ha hb hterm'
    rcases hgetnew a j ea ha with ⟨haa, hja, heea⟩ | holda
    · rcases hgetnew b j eb hb with ⟨hbb, hjb, heeb⟩ | holdb
      · rw [haa, hbb]
      · exfalso
        have : eb.term = t₀ := by
          rw [← hterm']
          rw [heea, he]
        have hsup := hInv.leaderSup l hl b j eb holdb this
        rw [hja] at hsup
        exact absurd hsup.1 (by omega)
    · rcases hgetnew b j eb hb with ⟨hbb, hjb, heeb⟩ | holdb
      · exfalso
        have : ea.term = t₀ := by
          rw [hterm']
          rw [heeb, he]
        have hsup := hInv.leaderSup l hl a j ea holda this
        rw [hjb] at hsup
        exact absurd hsup.1 (by omega)
      · have hm := hInv.logMatch a b j ea eb holda holdb hterm'
        rw [htakea a (j + 1) (List.get?_eq_some.mp holda).1,
          htakea b (j + 1) (List.get?_eq_some.mp holdb).1]
        exact hm
  · intro u w c' L h
    exact hInv.snapSorted u w c' L h
  · intro u w c' L h hct hcr
    rw [hterm c'] at hct
    rw [hrole c'] at hcr
    have hcl' : c' ≠ l := by
      intro hx
      rw [hx, hl] at hcr
      cases hcr
    rw [hlogw c' hcl']
    exact hInv.voteUpToDate u w c' L h hct hcr
  · rw [htag, hcomm]
    exact hInv.tagsMono
  · rw [htag, hcomm]
    exact hInv.tagPos
  · rw [htag, hcomm, hlead]
    exact hInv.tagLeader
  · rw [hcomm]
    exact hInv.cgTermLe
  · rw [hcomm]
    exact hInv.cgBoundary
  · intro j ce h
    rw [hcomm] at h
    have hai := hInv.ackInv j ce h
    refine ⟨hai.1, ?_⟩
    intro w hw
    have hw' := hai.2 w hw
    refine ⟨?_, ?_, ?_⟩
    · rw [hcov]
      refine ⟨?_, ?_⟩
      · have := hw'.1.1
        by_cases hwl : w = l
        · rw [hwl, hlen]
          rw [hwl] at this
          omega
        · rw [hlogw w hwl]
          exact this
      · rw [htakea w (j + 1) hw'.1.1]
        exact hw'.1.2
    · rw [hterm w]
      exact hw'.2.1
    · intro u c' L hu hvt
      rw [hcov]
      exact hw'.2.2 u c' L hu hvt
  · intro u c' hmaj hct hcr k hk htags
    rw [hvoters u c'] at hmaj
    rw [hcomm] at hk
    rw [htag] at htags
    rw [hterm c'] at hct
    rw [hrole c'] at hcr
    have hqc := hInv.quorumCovered u c' hmaj hct hcr k hk htags
    rw [hcov]
    refine ⟨?_, ?_⟩
    · by_cases hcl' : c' = l
      · rw [hcl', hlen]
        have := hqc.1
        rw [hcl'] at this
        omega
      · rw [hlogw c' hcl']
        exact hqc.1
    · rw [htakea c' k hqc.1]
      exact hqc.2
  · intro l' hl' k hk htags
    rw [hcomm] at hk
    rw [htag] at htags
    rw [hterm l'] at htags
    have hlc := hInv.leaderCovered l' (by rw [← hrole l']; exact hl') k hk htags
    rw [hcov]
    refine ⟨?_, ?_⟩
    · by_cases hcl' : l' = l
      · rw [hcl', hlen]
        have := hlc.1
        rw [hcl'] at this
        omega
      · rw [hlogw l' hcl']
        exact hlc.1
    · rw [htakea l' k hlc.1]
      exact hlc.2
  · intro a p e' h k hk
    rw [hcomm] at hk
    rw [htag, hcl]
    rcases hgetnew a p e' h with ⟨ha, hp, hee⟩ | hold
    · -- the freshly appended entry of the leader's own term
      have hterm' : e'.term = t₀ := by rw [hee, he]
      constructor
      · intro htags
        have hlc := hInv.leaderCovered l hl k hk (by
          intro j hj
          have := htags j hj
          rw [hterm'] at this
          omega)
        have hck : k ≤ (s.node l).log.length := hlc.1
        refine ⟨by omega, ?_⟩
        rw [ha]
        rw [htakel k (by rw [hP]; exact hlc.1)]
        exact hlc.2
      · intro hkp htags
        have hlc := hInv.leaderCovered l hl k hk (by
          intro j hj
          have := htags j hj
          rw [hterm'] at this
          omega)
        rw [ha]
        rw [htakel k (by rw [hP]; exact hlc.1)]
        exact hlc.2
    · have hec := hInv.entryCovered a p e' hold k hk
      have hplen : p < (s.node a).log.length := (List.get?_eq_some.mp hold).1
      constructor
      · intro htags
        have h1 := hec.1 htags
        refine ⟨h1.1, ?_⟩
        rw [htakea a k (by omega)]
        exact h1.2
      · intro hkp htags
        have h2 := hec.2 hkp htags
        rw [htakea a k (by omega)]
        exact h2
  · intro a
    have hnc := hInv.nodeCommit a
    rw [hci a, hcl, hcomm]
    refine ⟨hnc.1, ?_, ?_⟩
    · rw [htakea a _ hnc.2.2]
      exact hnc.2.1
    · by_cases ha : a = l
      · rw [ha, hlen]
        have := hnc.2.2
        rw [ha] at this
        omega
      · rw [hlogw a ha]
        exact hnc.2.2
  · intro a j hj
    rw [hci a] at hj
    rw [htag, hterm a]
    exact hInv.nodeCommitTag a j hj
  · intro a
    rw [happlied, hla a]
    have hle : (s.node a).lastApplied ≤ (s.node a).log.length :=
      le_trans (hInv.appliedLe a) (hInv.nodeCommit a).2.2
    rw [htakea a _ hle]
    exact hInv.appliedDef a
  · intro a
    rw [hla a, hci a]
    exact hInv.appliedLe a

theorem inv_appendEntriesEff {n : Nat} {s : GState n} (hInv : Inv s)
    (l f : Fin n) (p : Nat)
    (hl : (s.node l).role = NodeRole.Leader) (hne : l ≠ f)
    (hterm : (s.node f).currentTerm ≤ (s.node l).currentTerm)
    (hnotld : (s.node f).currentTerm = (s.node l).currentTerm →
      (s.node f).role ≠ NodeRole.Leader)
    (hp₁ : p ≤ (s.node f).log.length) (hp₂ : p ≤ (s.node l).log.length)
    (hprev : p = 0 ∨ ((s.node f).log.get? (p - 1)).map LogEntry.term =
      ((s.node l).log.get? (p - 1)).map LogEntry.term) :
    Inv (appendEntriesEff s l f p) := by
  set t₀ := (s.node l).currentTerm with ht₀
  set s' := appendEntriesEff s l f p with hs'
  have htakep : (s.node f).log.take p = (s.node l).log.take p := by
    by_cases hp0 : p = 0
    · rw [hp0]
      simp
    · rcases hprev with h0 | hpe
      · exact absurd h0 hp0
      · have hpf : p - 1 < (s.node f).log.length := by omega
        have hpl : p - 1 < (s.node l).log.length := by omega
        obtain ⟨ea, hea⟩ : ∃ ea, (s.node f).log.get? (p - 1) = some ea :=
          ⟨_, List.get?_eq_get hpf⟩
        obtain ⟨eb, heb⟩ : ∃ eb, (s.node l).log.get? (p - 1) = some eb :=
          ⟨_, List.get?_eq_get hpl⟩
        rw [hea, heb] at hpe
        have hteq : ea.term = eb.term := by
          simpa using hpe
        have := hInv.logMatch f l (p - 1) ea eb hea heb hteq
        have hp1 : p - 1 + 1 = p := by omega
        rw [hp1] at this
        exact this
  have hnewlog : (s.node f).log.take p ++ (s.node l).log.drop p =
      (s.node l).log := by
    rw [htakep]
    exact List.take_append_drop p _
  have hnodef : s'.node f =
      { currentTerm := t₀, role := NodeRole.Follower, log := (s.node l).log,
        commitIndex := max (s.node f).commitIndex
          (min (s.node l).commitIndex (s.node l).log.length),
        lastApplied := (s.node f).lastApplied } := by
    rw [hs']
    unfold appendEntriesEff
    simp only [Function.update_same]
    rw [hnewlog]
  have hnodew : ∀ w, w ≠ f → s'.node w = s.node w := by
    intro w hw
    rw [hs']
    unfold appendEntriesEff
    simp [Function.update_noteq hw]
  have hvotes : s'.votes = s.votes := rfl
  have hlead : s'.leaderOf = s.leaderOf := rfl
  have hcl : committedLog s' = committedLog s := rfl
  have htag : tagD s' = tagD s := rfl
  have hcomm : s'.committed = s.committed := rfl
  have hcov : ∀ L k, covered s' L k = covered s L k := fun L k => rfl
  have happlied : s'.applied = s.applied := rfl
  have hvoters : ∀ u c', voters s' u c' = voters s u c' := fun u c' => rfl
  have hlogf : (s'.node f).log = (s.node l).log := by rw [hnodef]
  have hlogw : ∀ w, w ≠ f → (s'.node w).log = (s.node w).log := by
    intro w hw
    rw [hnodew w hw]
  have htermf : (s'.node f).currentTerm = t₀ := by rw [hnodef]
  have hterm_eq : ∀ w, w ≠ f →
      (s'.node w).currentTerm = (s.node w).currentTerm := by
    intro w hw
    rw [hnodew w hw]
  have htermmono : ∀ w, (s.node w).currentTerm ≤ (s'.node w).currentTerm := by
    intro w
    by_cases hw : w = f
    · rw [hw, htermf]
      exact hterm
    · rw [hnodew w hw]
  have hrolef : (s'.node f).role = NodeRole.Follower := by rw [hnodef]
  have hrole_eq : ∀ w, w ≠ f → (s'.node w).role = (s.node w).role := by
    intro w hw
    rw [hnodew w hw]
  have hlaf : (s'.node f).lastApplied = (s.node f).lastApplied := by
    rw [hnodef]
  have hla : ∀ w, w ≠ f → (s'.node w).lastApplied = (s.node w).lastApplied := by
    intro w hw
    rw [hnodew w hw]
  have hcif : (s'.node f).commitIndex = max (s.node f).commitIndex
      (min (s.node l).commitIndex (s.node l).log.length) := by
    rw [hnodef]
  have hciw : ∀ w, w ≠ f → (s'.node w).commitIndex = (s.node w).commitIndex := by
    intro w hw
    rw [hnodew w hw]
  -- the leader's log contains every prefix of the committed log whose tags
  -- are bounded by the current term of any node at most at the leader's term
  have hlcov : ∀ k, k ≤ s.committed.length →
      (∀ j, j < k → tagD s j ≤ t₀) → covered s (s.node l).log k := by
    intro k hk htags
    exact hInv.leaderCovered l hl k hk htags
  have hcovf : covered s (s.node l).log (s.node f).commitIndex := by
    refine hlcov (s.node f).commitIndex (hInv.nodeCommit f).1 ?_
    intro j hj
    exact le_trans (hInv.nodeCommitTag f j hj) hterm
  have hcovl : covered s (s.node l).log (s.node l).commitIndex :=
    ⟨(hInv.nodeCommit l).2.2, (hInv.nodeCommit l).2.1⟩
  refine {
    votesTerm := ?_, voteCandTerm := ?_, leaderMaj := ?_, leaderGhost := ?_,
    leaderStable := ?_, leaderPos := ?_, candTerm := ?_, candSelfVote := ?_,
    entryLeader := ?_, logTermBound := ?_, logSorted := ?_, leaderSup := ?_,
    logMatch := ?_, snapSorted := ?_, voteUpToDate := ?_, tagsMono := ?_,
    tagPos := ?_, tagLeader := ?_, cgTermLe := ?_, cgBoundary := ?_,
    ackInv := ?_, quorumCovered := ?_, leaderCovered := ?_,
    entryCovered := ?_, nodeCommit := ?_, nodeCommitTag := ?_,
    appliedDef := ?_, appliedLe := ?_ }
  · intro u w h
    rw [hvotes] at h
    exact le_trans (hInv.votesTerm u w h) (htermmono w)
  · intro u w c' L h
    rw [hvotes] at h
    exact le_trans (hInv.voteCandTerm u w c' L h) (htermmono c')
  · intro u c' h
    rw [hlead] at h
    rw [hvoters u c']
    exact hInv.leaderMaj u c' h
  · intro l' h
    have hlf : l' ≠ f := by
      intro he
      rw [he, hrolef] at h
      cases h
    rw [hlead, hterm_eq l' hlf]
    exact hInv.leaderGhost l' (by rw [← hrole_eq l' hlf]; exact h)
  · intro u c' h
    rw [hlead] at h
    have hst := hInv.leaderStable u c' h
    refine ⟨le_trans hst.1 (htermmono c'), ?_⟩
    intro he
    by_cases hcf : c' = f
    · exfalso
      rw [hcf, htermf] at he
      rw [hcf] at hst
      have hfold : (s.node f).currentTerm = t₀ := by omega
      have := hst.2 (by omega)
      exact hnotld hfold this
    · rw [hterm_eq c' hcf] at he
      rw [hrole_eq c' hcf]
      exact hst.2 he
  · intro u c' h
    rw [hlead] at h
    exact hInv.leaderPos u c' h
  · intro w h
    have hwf : w ≠ f := by
      intro he
      rw [he, hrolef] at h
      cases h
    rw [hterm_eq w hwf]
    exact hInv.candTerm w (by rw [← hrole_eq w hwf]; exact h)
  · intro w h
    have hwf : w ≠ f := by
      intro he
      rw [he, hrolef] at h
      cases h
    rw [hterm_eq w hwf]
    unfold voteFor
    rw [hvotes]
    exact hInv.candSelfVote w (by rw [← hrole_eq w hwf]; exact h)
  · intro a j e h
    rw [hlead]
    by_cases ha : a = f
    · rw [ha, hlogf] at h
      exact hInv.entryLeader l j e h
    · rw [hlogw a ha] at h
      exact hInv.entryLeader a j e h
  · intro a j e h
    by_cases ha : a = f
    · rw [ha, hlogf] at h
      rw [ha, htermf]
      exact hInv.logTermBound l j e h
    · rw [hlogw a ha] at h
      rw [hterm_eq a ha]
      exact hInv.logTermBound a j e h
  · intro a
    by_cases ha : a = f
    · rw [ha, hlogf]
      exact hInv.logSorted l
    · rw [hlogw a ha]
      exact hInv.logSorted a
  · intro l' hl' a j e he hterm'
    have hlf : l' ≠ f := by
      intro hx
      rw [hx, hrolef] at hl'
      cases hl'
    rw [hterm_eq l' hlf] at hterm'
    have hl's : (s.node l').role = NodeRole.Leader := by
      rw [← hrole_eq l' hlf]
      exact hl'
    rw [hlogw l' hlf]
    by_cases ha : a = f
    · rw [ha, hlogf] at he ⊢
      exact hInv.leaderSup l' hl's l j e he hterm'
    · rw [hlogw a ha] at he ⊢
      exact hInv.leaderSup l' hl's a j e he hterm'
  · intro a b j ea eb ha hb he
    by_cases haf : a = f
    · by_cases hbf : b = f
      · rw [haf, hbf]
      · rw [haf, hlogf] at ha ⊢
        rw [hlogw b hbf] at hb ⊢
        exact hInv.logMatch l b j ea eb ha hb he
    · by_cases hbf : b = f
      · rw [hlogw a haf] at ha ⊢
        rw [hbf, hlogf] at hb ⊢
        exact hInv.logMatch a l j ea eb ha hb he
      · rw [hlogw a haf] at ha ⊢
        rw [hlogw b hbf] at hb ⊢
        exact hInv.logMatch a b j ea eb ha hb he
  · intro u w c' L h
    rw [hvotes] at h
    exact hInv.snapSorted u w c' L h
  · intro u w c' L h hct hcr
    rw [hvotes] at h
    have hcf : c' ≠ f := by
      intro he
      rw [he, hrolef] at hcr
      cases hcr
    rw [hterm_eq c' hcf] at hct
    rw [hrole_eq c' hcf] at hcr
    rw [hlogw c' hcf]
    exact hInv.voteUpToDate u w c' L h hct hcr
  · rw [htag, hcomm]
    exact hInv.tagsMono
  · rw [htag, hcomm]
    exact hInv.tagPos
  · rw [htag, hcomm, hlead]
    exact hInv.tagLeader
  · rw [hcomm]
    exact hInv.cgTermLe
  · rw [hcomm]
    exact hInv.cgBoundary
  · intro j ce h
    rw [hcomm] at h
    have hai := hInv.ackInv j ce h
    have hjlen : j < s.committed.length := (List.get?_eq_some.mp h).1
    refine ⟨hai.1, ?_⟩
    intro w hw
    have hw' := hai.2 w hw
    refine ⟨?_, le_trans hw'.2.1 (htermmono w), ?_⟩
    · rw [hcov]
      by_cases hwf : w = f
      · rw [hwf, hlogf]
        refine hlcov (j + 1) (by omega) ?_
        intro i hi
        have := hInv.tagsMono i j (by omega) hjlen
        have h2 : ce.ctag ≤ (s.node w).currentTerm := hw'.2.1
        rw [tagD_eq s h] at this
        have h3 : (s.node w).currentTerm ≤ t₀ := by
          rw [hwf]
          exact hterm
        omega
      · rw [hlogw w hwf]
        exact hw'.1
    · intro u c' L hu hvt
      rw [hvotes] at hvt
      rw [hcov]
      exact hw'.2.2 u c' L hu hvt
  · intro u c' hmaj hct hcr k hk htags
    rw [hvoters u c'] at hmaj
    rw [hcomm] at hk
    rw [htag] at htags
    have hcf : c' ≠ f := by
      intro he
      rw [he, hrolef] at hcr
      rcases hcr with hx | hx <;> cases hx
    rw [hterm_eq c' hcf] at hct
    rw [hrole_eq c' hcf] at hcr
    rw [hcov, hlogw c' hcf]
    exact hInv.quorumCovered u c' hmaj hct hcr k hk htags
  · intro l' hl' k hk htags
    have hlf : l' ≠ f := by
      intro hx
      rw [hx, hrolef] at hl'
      cases hl'
    rw [hcomm] at hk
    rw [htag] at htags
    rw [hterm_eq l' hlf] at htags
    rw [hcov, hlogw l' hlf]
    exact hInv.leaderCovered l' (by rw [← hrole_eq l' hlf]; exact hl') k hk htags
  · intro a q e h k hk
    rw [hcomm] at hk
    rw [htag, hcl]
    by_cases ha : a = f
    · rw [ha, hlogf] at h ⊢
      exact hInv.entryCovered l q e h k hk
    · rw [hlogw a ha] at h ⊢
      exact hInv.entryCovered a q e h k hk
  · intro a
    by_cases ha : a = f
    · rw [ha, hcif, hlogf, hcl, hcomm]
      have h1 := (hInv.nodeCommit f).1
      have h2 := (hInv.nodeCommit l).1
      constructor
      · exact max_le h1 (le_trans (min_le_left _ _) h2)
      · constructor
        · rcases max_cases (s.node f).commitIndex
            (min (s.node l).commitIndex (s.node l).log.length) with
            ⟨hmax, hge⟩ | ⟨hmax, hlt⟩
          · rw [hmax]
            exact hcovf.2
          · rw [hmax]
            exact (covered_mono hcovl (min_le_left _ _)).2
        · refine max_le hcovf.1 (min_le_right _ _)
    · rw [hciw a ha, hlogw a ha, hcl, hcomm]
      exact hInv.nodeCommit a
  · intro a j hj
    rw [htag]
    by_cases ha : a = f
    · rw [ha, hcif] at hj
      rw [ha, htermf]
      rcases Nat.lt_or_ge j (s.node f).commitIndex with h1 | h1
      · exact le_trans (hInv.nodeCommitTag f j h1) hterm
      · have h2 : j < (s.node l).commitIndex := by omega
        exact hInv.nodeCommitTag l j h2
    · rw [hciw a ha] at hj
      rw [hterm_eq a ha]
      exact hInv.nodeCommitTag a j hj
  · intro a
    rw [happlied]
    by_cases ha : a = f
    · rw [ha, hlogf, hlaf]
      have hle : (s.node f).lastApplied ≤ (s.node f).commitIndex :=
        hInv.appliedLe f
      have htf : (s.node f).log.take (s.node f).commitIndex =
          (s.node l).log.take (s.node f).commitIndex := by
        rw [(hInv.nodeCommit f).2.1, ← hcovf.2]
      have htla : (s.node l).log.take (s.node f).lastApplied =
          (s.node f).log.take (s.node f).lastApplied :=
        (take_eq_of_take_eq htf.symm hle)
      rw [htla]
      exact hInv.appliedDef f
    · rw [hlogw a ha, hla a ha]
      exact hInv.appliedDef a
  · intro a
    by_cases ha : a = f
    · rw [ha, hlaf, hcif]
      exact le_trans (hInv.appliedLe f) (le_max_left _ _)
    · rw [hla a ha, hciw a ha]
      exact hInv.appliedLe a

theorem inv_advanceCommitEff {n : Nat} {s : GState n} (hInv : Inv s)
    (l : Fin n) (hl : (s.node l).role = NodeRole.Leader) :
    Inv (advanceCommitEff s l) := by
  set t₀ := (s.node l).currentTerm with ht₀
  set k₀ := maxCommittable s l with hk₀
  have hspec := foldl_greatest (fun k => ackedOK s l k)
    ((s.node l).log.length + 1)
  have hk₀spec : (k₀ = 0 ∨ (ackedOK s l k₀ ∧ k₀ < (s.node l).log.length + 1)) ∧
      ∀ k, k < (s.node l).log.length + 1 → ackedOK s l k → k ≤ k₀ := by
    rw [hk₀]
    unfold maxCommittable
    exact hspec
  rcases hk₀spec.1 with hk0 | hkOK
  · -- nothing is committable: the step leaves the state unchanged
    have hs'eq : advanceCommitEff s l = s := by
      unfold advanceCommitEff
      rw [← hk₀, hk0]
      simp only [List.take_zero, List.drop_nil, List.map_nil,
        List.append_nil, Nat.max_zero]
      have hupd : Function.update s.node l
          { s.node l with commitIndex := (s.node l).commitIndex } = s.node := by
        exact Function.update_eq_self l s.node
      rw [hupd]
    rw [hs'eq]
    exact hInv
  · obtain ⟨hack, hk₀lt⟩ := hkOK
    have hmaj : IsMajority (ackers s l k₀) := hack.1
    have hk₀len : k₀ ≤ (s.node l).log.length := by omega
    set s' := advanceCommitEff s l with hs'
    set lenC := s.committed.length with hlenC
    have hdomlead : ∀ u x, s.leaderOf u = some x → u ≤ t₀ :=
      fun u x h => commit_term_dom hInv hmaj u x h
    have hdomtag : ∀ j, j < lenC → tagD s j ≤ t₀ :=
      fun j hj => tags_le_of_ack hInv hmaj j hj
    have hdoment : ∀ a j e, (s.node a).log.get? j = some e → e.term ≤ t₀ :=
      fun a j e h => entry_term_le_of_ack hInv hmaj a j e h
    have ht₀pos : 1 ≤ t₀ :=
      hInv.leaderPos t₀ l (hInv.leaderGhost l hl)
    have hcovC : covered s (s.node l).log lenC :=
      hInv.leaderCovered l hl lenC (le_refl _) (fun j hj => hdomtag j hj)
    have hcgfix : committedLog s = (s.node l).log.take lenC := by
      have h1 := hcovC.2
      have h2 : (committedLog s).take lenC = committedLog s := by
        have := committedLog_length s
        rw [← hlenC] at this
        rw [← this]
        exact List.take_length _
      rw [h2] at h1
      exact h1.symm
    have hnodel : s'.node l =
        { s.node l with commitIndex := max (s.node l).commitIndex k₀ } := by
      rw [hs']
      unfold advanceCommitEff
      rw [← hk₀]
      simp
    have hnodew : ∀ w, w ≠ l → s'.node w = s.node w := by
      intro w hw
      rw [hs']
      unfold advanceCommitEff
      simp [Function.update_noteq hw]
    have hvotes : s'.votes = s.votes := rfl
    have hlead : s'.leaderOf = s.leaderOf := rfl
    have happlied : s'.applied = s.applied := rfl
    have hvoters : ∀ u c', voters s' u c' = voters s u c' := fun u c' => rfl
    have hcomm' : s'.committed = s.committed ++
        (((s.node l).log.take k₀).drop lenC).map
          (fun e => CEntry.mk e t₀ (ackers s l k₀)) := by
      rw [hs']
      unfold advanceCommitEff
      rw [← hk₀]
    have hlog : ∀ w, (s'.node w).log = (s.node w).log := by
      intro w
      by_cases hw : w = l
      · rw [hw, hnodel]
      · rw [hnodew w hw]
    have hterm : ∀ w, (s'.node w).currentTerm = (s.node w).currentTerm := by
      intro w
      by_cases hw : w = l
      · rw [hw, hnodel]
      · rw [hnodew w hw]
    have hrole : ∀ w, (s'.node w).role = (s.node w).role := by
      intro w
      by_cases hw : w = l
      · rw [hw, hnodel]
      · rw [hnodew w hw]
    have hla : ∀ w, (s'.node w).lastApplied = (s.node w).lastApplied := by
      intro w
      by_cases hw : w = l
      · rw [hw, hnodel]
      · rw [hnodew w hw]
    have hcil : (s'.node l).commitIndex =
        max (s.node l).commitIndex k₀ := by
      rw [hnodel]
    have hciw : ∀ w, w ≠ l →
        (s'.node w).commitIndex = (s.node w).commitIndex := by
      intro w hw
      rw [hnodew w hw]
    have hlenC' : s'.committed.length = max lenC k₀ := by
      rw [hcomm']
      rw [List.length_append, List.length_map, List.length_drop,
        List.length_take]
      omega
    have hcg' : committedLog s' = committedLog s ++
        ((s.node l).log.take k₀).drop lenC := by
      rw [hs']
      unfold committedLog advanceCommitEff
      rw [← hk₀]
      rw [List.map_append, List.map_map]
      have : (CEntry.entry ∘ fun e => CEntry.mk e t₀ (ackers s l k₀)) =
          fun e => e := rfl
      rw [this, List.map_id']
    have hcgB : lenC ≤ k₀ → committedLog s' = (s.node l).log.take k₀ := by
      intro hle
      rw [hcg', hcgfix]
      have h1 : ((s.node l).log.take k₀).take lenC = (s.node l).log.take lenC := by
        rw [List.take_take, Nat.min_eq_left hle]
      rw [← h1]
      exact List.take_append_drop lenC _
    have hcgA : ∀ k, k ≤ lenC →
        (committedLog s').take k = (committedLog s).take k := by
      intro k hk
      rw [hcg']
      refine List.take_append_of_le_length ?_
      rw [committedLog_length]
      omega
    have hcgtake : ∀ k, k ≤ max lenC k₀ →
        (committedLog s').take k = (s.node l).log.take k := by
      intro k hk
      rcases le_or_lt k lenC with h1 | h1
      · rw [hcgA k h1, hcgfix, List.take_take, Nat.min_eq_left h1]
      · have h2 : lenC ≤ k₀ := by omega
        rw [hcgB h2, List.take_take, Nat.min_eq_left (by omega)]
    have hcget_old : ∀ j, j < lenC →
        s'.committed.get? j = s.committed.get? j := by
      intro j hj
      rw [hcomm']
      exact List.get?_append (by omega)
    have htagD_old : ∀ j, j < lenC → tagD s' j = tagD s j := by
      intro j hj
      unfold tagD
      rw [hcget_old j hj]
    have hcget_new : ∀ j, lenC ≤ j → j < max lenC k₀ →
        ∃ e, (s.node l).log.get? j = some e ∧
          s'.committed.get? j = some (CEntry.mk e t₀ (ackers s l k₀)) := by
      intro j hj1 hj2
      have hjk : j < k₀ := by omega
      obtain ⟨e, he⟩ : ∃ e, (s.node l).log.get? j = some e :=
        ⟨_, List.get?_eq_get (by omega)⟩
      refine ⟨e, he, ?_⟩
      rw [hcomm']
      rw [List.get?_append_right (by omega)]
      rw [List.get?_map]
      have hd : (((s.node l).log.take k₀).drop lenC).get? (j - lenC) =
          ((s.node l).log.take k₀).get? j := by
        rw [List.get?_drop]
        congr 1
        omega
      rw [hd]
      rw [List.get?_take hjk, he]
      rfl
    have htagD_new : ∀ j, lenC ≤ j → j < max lenC k₀ → tagD s' j = t₀ := by
      intro j hj1 hj2
      obtain ⟨e, he, hce⟩ := hcget_new j hj1 hj2
      unfold tagD
      rw [hce]
      rfl
    have hnovote_above : ∀ u, t₀ < u → ∀ c', ¬ IsMajority (voters s u c') := by
      intro u hu c' hmaj'
      obtain ⟨w, hw1, hw2⟩ := maj_inter hmaj hmaj'
      unfold ackers at hw1
      simp only [Finset.mem_filter, Finset.mem_univ, true_and] at hw1
      rw [mem_voters] at hw2
      obtain ⟨L, hL⟩ := (voteFor_eq_some s u w c').mp hw2
      have := hInv.votesTerm u w (by rw [hL]; simp)
      omega
    have hrule : 1 ≤ k₀ →
        ((s.node l).log.get? (k₀ - 1)).map LogEntry.term = some t₀ := by
      intro hk1
      rcases hack.2 with h0 | h1
      · omega
      · exact h1
    refine {
      votesTerm := ?_, voteCandTerm := ?_, leaderMaj := ?_, leaderGhost := ?_,
      leaderStable := ?_, leaderPos := ?_, candTerm := ?_, candSelfVote := ?_,
      entryLeader := ?_, logTermBound := ?_, logSorted := ?_, leaderSup := ?_,
      logMatch := ?_, snapSorted := ?_, voteUpToDate := ?_, tagsMono := ?_,
      tagPos := ?_, tagLeader := ?_, cgTermLe := ?_, cgBoundary := ?_,
      ackInv := ?_, quorumCovered := ?_, leaderCovered := ?_,
      entryCovered := ?_, nodeCommit := ?_, nodeCommitTag := ?_,
      appliedDef := ?_, appliedLe := ?_ }
    · intro u w h
      rw [hvotes] at h
      rw [hterm w]
      exact hInv.votesTerm u w h
    · intro u w c' L h
      rw [hvotes] at h
      rw [hterm c']
      exact hInv.voteCandTerm u w c' L h
    · intro u c' h
      rw [hlead] at h
      rw [hvoters u c']
      exact hInv.leaderMaj u c' h
    · intro l' h
      rw [hlead, hterm l']
      exact hInv.leaderGhost l' (by rw [← hrole l']; exact h)
    · intro u c' h
      rw [hlead] at h
      have hst := hInv.leaderStable u c' h
      rw [hterm c']
      refine ⟨hst.1, ?_⟩
      intro he
      rw [hrole c']
      exact hst.2 he
    · intro u c' h
      rw [hlead] at h
      exact hInv.leaderPos u c' h
    · intro w h
      rw [hterm w]
      exact hInv.candTerm w (by rw [← hrole w]; exact h)
    · intro w h
      rw [hterm w]
      unfold voteFor
      rw [hvotes]
      exact hInv.candSelfVote w (by rw [← hrole w]; exact h)
    · intro a j e h
      rw [hlog a] at h
      rw [hlead]
      exact hInv.entryLeader a j e h
    · intro a j e h
      rw [hlog a] at h
      rw [hterm a]
      exact hInv.logTermBound a j e h
    · intro a
      rw [hlog a]
      exact hInv.logSorted a
    · intro l' hl' a j e he hterm'
      rw [hlog a] at he
      rw [hlog a, hlog l']
      rw [hterm l'] at hterm'
      exact hInv.leaderSup l' (by rw [← hrole l']; exact hl') a j e he hterm'
    · intro a b j ea eb ha hb he
      rw [hlog a] at ha
      rw [hlog b] at hb
      rw [hlog a, hlog b]
      exact hInv.logMatch a b j ea eb ha hb he
    · intro u w c' L h
      rw [hvotes] at h
      exact hInv.snapSorted u w c' L h
    · intro u w c' L h hct hcr
      rw [hvotes] at h
      rw [hterm c'] at hct
      rw [hrole c'] at hcr
      rw [hlog c']
      exact hInv.voteUpToDate u w c' L h hct hcr
    · intro i j hij hj
      rw [hlenC'] at hj
      rcases Nat.lt_or_ge j lenC with h1 | h1
      · rw [htagD_old i (by omega), htagD_old j h1]
        exact hInv.tagsMono i j hij h1
      · rw [htagD_new j h1 hj]
        rcases Nat.lt_or_ge i lenC with h2 | h2
        · rw [htagD_old i h2]
          exact hdomtag i h2
        · rw [htagD_new i h2 (by omega)]
    · intro j hj
      rw [hlenC'] at hj
      rcases Nat.lt_or_ge j lenC with h1 | h1
      · rw [htagD_old j h1]
        exact hInv.tagPos j h1
      · rw [htagD_new j h1 hj]
        exact ht₀pos
    · intro j hj
      rw [hlenC'] at hj
      rw [hlead]
      rcases Nat.lt_or_ge j lenC with h1 | h1
      · rw [htagD_old j h1]
        exact hInv.tagLeader j h1
      · rw [htagD_new j h1 hj]
        rw [hInv.leaderGhost l hl]
        simp
    · intro j ce h
      have hj : j < s'.committed.length := (List.get?_eq_some.mp h).1
      rw [hlenC'] at hj
      rcases Nat.lt_or_ge j lenC with h1 | h1
      · rw [hcget_old j h1] at h
        exact hInv.cgTermLe j ce h
      · obtain ⟨e, he, hce⟩ := hcget_new j h1 hj
        rw [h] at hce
        have hee := Option.some.inj hce
        rw [hee]
        exact hdoment l j e he
    · intro j ce h hnext
      have hj : j < s'.committed.length := (List.get?_eq_some.mp h).1
      rw [hlenC'] at hj
      rcases Nat.lt_or_ge j lenC with h1 | h1
      · rw [hcget_old j h1] at h
        apply hInv.cgBoundary j ce h
        intro ce' hce'
        rcases Nat.lt_or_ge (j + 1) lenC with h2 | h2
        · exact hnext ce' (by rw [hcget_old (j + 1) h2]; exact hce')
        · -- j is the old final entry; in the old state it had no successor
          have hjl : j + 1 = lenC := by omega
          exfalso
          have := (List.get?_eq_some.mp hce').1
          omega
      · obtain ⟨e, he, hce⟩ := hcget_new j h1 hj
        rw [h] at hce
        have hee := Option.some.inj hce
        have hctag : ce.ctag = t₀ := by rw [hee]
        have hentry : ce.entry = e := by rw [hee]
        rcases Nat.lt_or_ge (j + 1) (max lenC k₀) with h2 | h2
        · -- interior new entry: the successor carries the same tag
          exfalso
          obtain ⟨e', he', hce'⟩ := hcget_new (j + 1) (by omega) h2
          exact hnext (CEntry.mk e' t₀ (ackers s l k₀)) hce'
            (show t₀ = ce.ctag by rw [hctag])
        · -- the final new entry carries the committing term, by the commit
          -- rule
          have hjfin : j = k₀ - 1 := by omega
          have hrule' := hrule (by omega)
          rw [hctag, hentry]
          rw [hjfin] at he
          rw [he] at hrule'
          simpa using hrule'
    · intro j ce h
      have hj : j < s'.committed.length := (List.get?_eq_some.mp h).1
      rw [hlenC'] at hj
      rcases Nat.lt_or_ge j lenC with h1 | h1
      · rw [hcget_old j h1] at h
        have hai := hInv.ackInv j ce h
        refine ⟨hai.1, ?_⟩
        intro w hw
        have hw' := hai.2 w hw
        refine ⟨?_, ?_, ?_⟩
        · refine ⟨?_, ?_⟩
          · rw [hlog w]
            exact hw'.1.1
          · rw [hlog w, hcgA (j + 1) (by omega)]
            exact hw'.1.2
        · rw [hterm w]
          exact hw'.2.1
        · intro u c' L hu hvt
          rw [hvotes] at hvt
          have hc := hw'.2.2 u c' L hu hvt
          refine ⟨hc.1, ?_⟩
          rw [hcgA (j + 1) (by omega)]
          exact hc.2
      · obtain ⟨e, he, hce⟩ := hcget_new j h1 hj
        rw [h] at hce
        have hee := Option.some.inj hce
        rw [hee]
        refine ⟨hmaj, ?_⟩
        intro w hw
        have hwack : (s.node w).currentTerm = t₀ ∧
            k₀ ≤ (s.node w).log.length ∧
            (s.node w).log.take k₀ = (s.node l).log.take k₀ := by
          have := hw
          unfold ackers at this
          simp only [Finset.mem_filter, Finset.mem_univ, true_and] at this
          exact this
        refine ⟨?_, ?_, ?_⟩
        · refine ⟨?_, ?_⟩
          · rw [hlog w]
            omega
          · rw [hlog w]
            rw [hcgtake (j + 1) (by omega)]
            exact take_eq_of_take_eq hwack.2.2 (by omega)
        · rw [hterm w]
          show t₀ ≤ (s.node w).currentTerm
          omega
        · intro u c' L hu hvt
          rw [hvotes] at hvt
          exfalso
          have := hInv.votesTerm u w (by rw [hvt]; simp)
          have hwt : (s.node w).currentTerm = t₀ := hwack.1
          show False
          have hut₀ : t₀ < u := hu
          omega
    · intro u c' hmaj' hct hcr k hk htags
      rw [hvoters u c'] at hmaj'
      rw [hlenC'] at hk
      rw [hterm c'] at hct
      rw [hrole c'] at hcr
      rcases le_or_lt k lenC with h1 | h1
      · have hq := hInv.quorumCovered u c' hmaj' hct hcr k h1 (by
          intro j hj
          have := htags j hj
          rw [htagD_old j (by omega)] at this
          exact this)
        refine ⟨?_, ?_⟩
        · rw [hlog c']
          exact hq.1
        · rw [hlog c', hcgA k h1]
          exact hq.2
      · exfalso
        have hnew := htags lenC (by omega)
        rw [htagD_new lenC (le_refl _) (by omega)] at hnew
        exact hnovote_above u hnew c' hmaj'
    · intro l' hl' k hk htags
      rw [hlenC'] at hk
      rw [hterm l'] at htags
      have hl's : (s.node l').role = NodeRole.Leader := by
        rw [← hrole l']
        exact hl'
      by_cases hll : l' = l
      · refine ⟨?_, ?_⟩
        · rw [hlog l', hll]
          have h1 : lenC ≤ (s.node l).log.length := hcovC.1
          omega
        · rw [hlog l', hll, hcgtake k hk]
      · rcases le_or_lt k lenC with h1 | h1
        · have hq := hInv.leaderCovered l' hl's k h1 (by
            intro j hj
            have := htags j hj
            rw [htagD_old j (by omega)] at this
            exact this)
          refine ⟨?_, ?_⟩
          · rw [hlog l']
            exact hq.1
          · rw [hlog l', hcgA k h1]
            exact hq.2
        · exfalso
          have hnew := htags lenC (by omega)
          rw [htagD_new lenC (le_refl _) (by omega)] at hnew
          have hglead' := hInv.leaderGhost l' hl's
          have hle := hdomlead _ l' hglead'
          have hne : (s.node l').currentTerm ≠ t₀ := by
            intro he
            exact hll (leader_unique hInv hl's hl (by rw [he, ht₀]))
          omega
    · intro a p e h k hk
      rw [hlog a] at h
      rw [hlenC'] at hk
      have hec := fun hkC => hInv.entryCovered a p e h k hkC
      constructor
      · intro htags
        rcases le_or_lt k lenC with h1 | h1
        · have h2 := (hec h1).1 (by
            intro j hj
            have := htags j hj
            rw [htagD_old j (by omega)] at this
            exact this)
          refine ⟨h2.1, ?_⟩
          rw [hlog a, hcgA k h1]
          exact h2.2
        · exfalso
          have hnew := htags lenC (by omega)
          rw [htagD_new lenC (le_refl _) (by omega)] at hnew
          have := hdoment a p e h
          omega
      · intro hkp htags
        rcases le_or_lt k lenC with h1 | h1
        · have h2 := (hec h1).2 hkp (by
            intro j hj
            have := htags j hj
            rw [htagD_old j (by omega)] at this
            exact this)
          rw [hlog a, hcgA k h1]
          exact h2
        · have hnew := htags lenC (by omega)
          rw [htagD_new lenC (le_refl _) (by omega)] at hnew
          have hle := hdoment a p e h
          have heterm : e.term = t₀ := by omega
          have hsup := hInv.leaderSup l hl a p e h (by rw [heterm, ht₀])
          rw [hlog a, hcgtake k hk]
          exact take_eq_of_take_eq hsup.2 (by omega)
    · intro a
      by_cases ha : a = l
      · rw [ha, hcil, hlog l, hlenC']
        have hnc := hInv.nodeCommit l
        refine ⟨?_, ?_, ?_⟩
        · omega
        · rw [hcgtake (max (s.node l).commitIndex k₀) (by omega)]
        · have := hnc.2.2
          omega
      · rw [hciw a ha, hlog a, hlenC']
        have hnc := hInv.nodeCommit a
        refine ⟨by omega, ?_, hnc.2.2⟩
        rw [hcgA _ hnc.1]
        exact hnc.2.1
    · intro a j hj
      rw [hterm a]
      by_cases ha : a = l
      · rw [ha, hcil] at hj
        rw [ha]
        rcases Nat.lt_or_ge j lenC with h1 | h1
        · rw [htagD_old j h1]
          exact hdomtag j h1
        · rw [htagD_new j h1 (by
            have := (hInv.nodeCommit l).1
            omega)]
      · rw [hciw a ha] at hj
        have h1 : j < lenC := by
          have := (hInv.nodeCommit a).1
          omega
        rw [htagD_old j h1]
        exact hInv.nodeCommitTag a j hj
    · intro a
      rw [happlied, hlog a, hla a]
      exact hInv.appliedDef a
    · intro a
      rw [hla a]
      by_cases ha : a = l
      · rw [ha, hcil]
        exact le_trans (hInv.appliedLe l) (le_max_left _ _)
      · rw [hciw a ha]
        exact hInv.appliedLe a

theorem inv_applyEff {n : Nat} {s : GState n} (hInv : Inv s) (a : Fin n)
    (h : (s.node a).lastApplied < (s.node a).commitIndex) :
    Inv (applyEff s a) := by
  set s' := applyEff s a with hs'
  have hnodea : s'.node a =
      { s.node a with lastApplied := (s.node a).lastApplied + 1 } := by
    rw [hs']
    unfold applyEff
    simp
  have hnodew : ∀ w, w ≠ a → s'.node w = s.node w := by
    intro w hw
    rw [hs']
    unfold applyEff
    simp [Function.update_noteq hw]
  have hvotes : s'.votes = s.votes := rfl
  have hlead : s'.leaderOf = s.leaderOf := rfl
  have hcomm : s'.committed = s.committed := rfl
  have htag : tagD s' = tagD s := rfl
  have hcl : committedLog s' = committedLog s := rfl
  have hcov : ∀ L k, covered s' L k = covered s L k := fun L k => rfl
  have happa : s'.applied a =
      s.applied a ++ ((s.node a).log.get? (s.node a).lastApplied).toList := by
    rw [hs']
    unfold applyEff
    simp
  have happw : ∀ w, w ≠ a → s'.applied w = s.applied w := by
    intro w hw
    rw [hs']
    unfold applyEff
    simp [Function.update_noteq hw]
  have hlog : ∀ w, (s'.node w).log = (s.node w).log := by
    intro w
    by_cases hw : w = a
    · rw [hw, hnodea]
    · rw [hnodew w hw]
  have hterm : ∀ w, (s'.node w).currentTerm = (s.node w).currentTerm := by
    intro w
    by_cases hw : w = a
    · rw [hw, hnodea]
    · rw [hnodew w hw]
  have hrole : ∀ w, (s'.node w).role = (s.node w).role := by
    intro w
    by_cases hw : w = a
    · rw [hw, hnodea]
    · rw [hnodew w hw]
  have hci : ∀ w, (s'.node w).commitIndex = (s.node w).commitIndex := by
    intro w
    by_cases hw : w = a
    · rw [hw, hnodea]
    · rw [hnodew w hw]
  have hlaa : (s'.node a).lastApplied = (s.node a).lastApplied + 1 := by
    rw [hnodea]
  have hlaw : ∀ w, w ≠ a → (s'.node w).lastApplied = (s.node w).lastApplied := by
    intro w hw
    rw [hnodew w hw]
  refine {
    votesTerm := ?_, voteCandTerm := ?_, leaderMaj := ?_, leaderGhost := ?_,
    leaderStable := ?_, leaderPos := ?_, candTerm := ?_, candSelfVote := ?_,
    entryLeader := ?_, logTermBound := ?_, logSorted := ?_, leaderSup := ?_,
    logMatch := ?_, snapSorted := ?_, voteUpToDate := ?_, tagsMono := ?_,
    tagPos := ?_, tagLeader := ?_, cgTermLe := ?_, cgBoundary := ?_,
    ackInv := ?_, quorumCovered := ?_, leaderCovered := ?_,
    entryCovered := ?_, nodeCommit := ?_, nodeCommitTag := ?_,
    appliedDef := ?_, appliedLe := ?_ }
  · intro u w hv
    rw [hvotes] at hv
    rw [hterm w]
    exact hInv.votesTerm u w hv
  · intro u w c' L hv
    rw [hvotes] at hv
    rw [hterm c']
    exact hInv.voteCandTerm u w c' L hv
  · intro u c' hv
    rw [hlead] at hv
    exact hInv.leaderMaj u c' hv
  · intro l' hv
    rw [hlead, hterm l']
    exact hInv.leaderGhost l' (by rw [← hrole l']; exact hv)
  · intro u c' hv
    rw [hlead] at hv
    have hst := hInv.leaderStable u c' hv
    rw [hterm c']
    refine ⟨hst.1, ?_⟩
    intro he
    rw [hrole c']
    exact hst.2 he
  · intro u c' hv
    rw [hlead] at hv
    exact hInv.leaderPos u c' hv
  · intro w hv
    rw [hterm w]
    exact hInv.candTerm w (by rw [← hrole w]; exact hv)
  · intro w hv
    rw [hterm w]
    unfold voteFor
    rw [hvotes]
    exact hInv.candSelfVote w (by rw [← hrole w]; exact hv)
  · intro b j e hv
    rw [hlog b] at hv
    rw [hlead]
    exact hInv.entryLeader b j e hv
  · intro b j e hv
    rw [hlog b] at hv
    rw [hterm b]
    exact hInv.logTermBound b j e hv
  · intro b
    rw [hlog b]
    exact hInv.logSorted b
  · intro l' hl' b j e he hterm'
    rw [hlog b] at he
    rw [hterm l'] at hterm'
    rw [hlog b, hlog l']
    exact hInv.leaderSup l' (by rw [← hrole l']; exact hl') b j e he hterm'
  · intro b b' j ea eb hb hb' he
    rw [hlog b] at hb
    rw [hlog b'] at hb'
    rw [hlog b, hlog b']
    exact hInv.logMatch b b' j ea eb hb hb' he
  · intro u w c' L hv
    rw [hvotes] at hv
    exact hInv.snapSorted u w c' L hv
  · intro u w c' L hv hct hcr
    rw [hvotes] at hv
    rw [hterm c'] at hct
    rw [hrole c'] at hcr
    rw [hlog c']
    exact hInv.voteUpToDate u w c' L hv hct hcr
  · rw [htag, hcomm]
    exact hInv.tagsMono
  · rw [htag, hcomm]
    exact hInv.tagPos
  · rw [htag, hcomm, hlead]
    exact hInv.tagLeader
  · rw [hcomm]
    exact hInv.cgTermLe
  · rw [hcomm]
    exact hInv.cgBoundary
  · intro j ce hv
    rw [hcomm] at hv
    have hai := hInv.ackInv j ce hv
    refine ⟨hai.1, ?_⟩
    intro w hw
    have hw' := hai.2 w hw
    refine ⟨?_, ?_, ?_⟩
    · rw [hcov, hlog w]
      exact hw'.1
    · rw [hterm w]
      exact hw'.2.1
    · intro u c' L hu hvt
      rw [hvotes] at hvt
      rw [hcov]
      exact hw'.2.2 u c' L hu hvt
  · intro u c' hmaj hct hcr k hk htags
    rw [hcomm] at hk
    rw [htag] at htags
    rw [hterm c'] at hct
    rw [hrole c'] at hcr
    rw [hcov, hlog c']
    exact hInv.quorumCovered u c' hmaj hct hcr k hk htags
  · intro l' hl' k hk htags
    rw [hcomm] at hk
    rw [htag] at htags
    rw [hterm l'] at htags
    rw [hcov, hlog l']
    exact hInv.leaderCovered l' (by rw [← hrole l']; exact hl') k hk htags
  · intro b p e hv k hk
    rw [hlog b] at hv
    rw [hcomm] at hk
    have hec := hInv.entryCovered b p e hv k hk
    rw [htag, hcl]
    constructor
    · intro hx
      have := hec.1 hx
      rw [hlog b]
      exact this
    · intro hx hy
      have := hec.2 hx hy
      rw [hlog b]
      exact this
  · intro b
    rw [hci b, hlog b, hcl, hcomm]
    exact hInv.nodeCommit b
  · intro b j hj
    rw [hci b] at hj
    rw [htag, hterm b]
    exact hInv.nodeCommitTag b j hj
  · intro b
    by_cases hb : b = a
    · rw [hb, happa, hlog a, hlaa]
      rw [hInv.appliedDef a, List.take_succ, List.get?_eq_getElem?]
    · rw [happw b hb, hlog b, hlaw b hb]
      exact hInv.appliedDef b
  · intro b
    by_cases hb : b = a
    · rw [hb, hlaa, hci a]
      omega
    · rw [hlaw b hb, hci b]
      exact hInv.appliedLe b

/-- Every protocol step preserves the invariant. -/
theorem inv_step {n : Nat} {s s' : GState n} (hInv : Inv s)
    (hstep : Step s s') : Inv s' := by
  cases hstep with
  | timeout v hrole => exact inv_timeoutEff hInv v hrole
  | grantVote v c hc hv hupd => exact inv_grantVoteEff hInv v c hc hv hupd
  | becomeLeader c S hc hmaj hself hvotes =>
      exact inv_becomeLeaderEff hInv c S hc hmaj hself hvotes
  | clientRequest l cmd hl => exact inv_clientRequestEff hInv l cmd hl
  | appendEntries l f p hl hne hterm hnotld hp₁ hp₂ hprev =>
      exact inv_appendEntriesEff hInv l f p hl hne hterm hnotld hp₁ hp₂ hprev
  | advanceCommit l hl => exact inv_advanceCommitEff hInv l hl
  | applyCommitted a h => exact inv_applyEff hInv a h

/-- The invariant holds in every reachable state. -/
theorem reachable_inv {n : Nat} {s : GState n} (h : Reachable s) : Inv s := by
  unfold Reachable at h
  induction h with
  | refl => exact inv_init n
  | tail hr hstep ih => exact inv_step ih hstep

/-- C3: in every reachable state at most one node is Leader per term, and a
node can only become Leader in its own current term upon a recorded strict
majority of votes for it (including its own) in that term. -/
theorem C3_leader_uniqueness {n : Nat} {s s' : GState n}
    (hreach : Reachable s) :
    (∀ a b : Fin n, (s.node a).role = NodeRole.Leader →
      (s.node b).role = NodeRole.Leader →
      (s.node a).currentTerm = (s.node b).currentTerm → a = b) ∧
    (Step s s' → ∀ c : Fin n, (s.node c).role ≠ NodeRole.Leader →
      (s'.node c).role = NodeRole.Leader →
      (s'.node c).currentTerm = (s.node c).currentTerm ∧
      ∃ S : Finset (Fin n), IsMajority S ∧ c ∈ S ∧
        ∀ v ∈ S, voteFor s ((s.node c).currentTerm) v = some c) := by
  have hInv := reachable_inv hreach
  constructor
  · intro a b ha hb ht
    exact leader_unique hInv ha hb ht
  · intro hstep c hnot hnew
    cases hstep with
    | timeout v hrole =>
        exfalso
        by_cases hc : c = v
        · rw [hc] at hnew
          unfold timeoutEff at hnew
          simp at hnew
        · unfold timeoutEff at hnew
          simp [Function.update_noteq hc] at hnew
          exact hnot hnew
    | grantVote v c₀ hc hv hupd =>
        exfalso
        by_cases hcv : c = v
        · rw [hcv] at hnew hnot
          by_cases hlt : (s.node v).currentTerm < (s.node c₀).currentTerm
          · unfold grantVoteEff at hnew
            simp [hlt] at hnew
          · unfold grantVoteEff at hnew
            simp [hlt] at hnew
            exact hnot hnew
        · unfold grantVoteEff at hnew
          simp [Function.update_noteq hcv] at hnew
          exact hnot hnew
    | becomeLeader c₀ S hc hmaj hself hvotes =>
        by_cases hcc : c = c₀
        · constructor
          · unfold becomeLeaderEff
            by_cases h : c = c₀ <;> simp [Function.update_apply, h]
          · refine ⟨S, hmaj, by rw [hcc]; exact hself, ?_⟩
            intro v hvS
            rw [hcc]
            exact hvotes v hvS
        · exfalso
          unfold becomeLeaderEff at hnew
          simp [Function.update_noteq hcc] at hnew
          exact hnot hnew
    | clientRequest l cmd hl =>
        exfalso
        by_cases hcl : c = l
        · rw [hcl] at hnew hnot
          unfold clientRequestEff at hnew
          simp at hnew
          exact hnot hnew
        · unfold clientRequestEff at hnew
          simp [Function.update_noteq hcl] at hnew
          exact hnot hnew
    | appendEntries l f p hl hne hterm hnotld hp₁ hp₂ hprev =>
        exfalso
        by_cases hcf : c = f
        · rw [hcf] at hnew
          unfold appendEntriesEff at hnew
          simp at hnew
        · unfold appendEntriesEff at hnew
          simp [Function.update_noteq hcf] at hnew
          exact hnot hnew
    | advanceCommit l hl =>
        exfalso
        by_cases hcl : c = l
        · rw [hcl] at hnew hnot
          unfold advanceCommitEff at hnew
          simp at hnew
          exact hnot hnew
        · unfold advanceCommitEff at hnew
          simp [Function.update_noteq hcl] at hnew
          exact hnot hnew
    | applyCommitted a h =>
        exfalso
        by_cases hca : c = a
        · rw [hca] at hnew hnot
          unfold applyEff at hnew
          simp at hnew
          exact hnot hnew
        · unfold applyEff at hnew
          simp [Function.update_noteq hca] at hnew
          exact hnot hnew

/-- C3 witness: evaluated at the initial three-node state and the first
election timeout step. -/
theorem C3_leader_uniqueness_witness :
    ((∀ a b : Fin 3, ((initState 3).node a).role = NodeRole.Leader →
      ((initState 3).node b).role = NodeRole.Leader →
      ((initState 3).node a).currentTerm = ((initState 3).node b).currentTerm →
      a = b) ∧
    (Step (initState 3) (timeoutEff (initState 3) 0) →
      ∀ c : Fin 3, ((initState 3).node c).role ≠ NodeRole.Leader →
      ((timeoutEff (initState 3) 0).node c).role = NodeRole.Leader →
      ((timeoutEff (initState 3) 0).node c).currentTerm =
        ((initState 3).node c).currentTerm ∧
      ∃ S : Finset (Fin 3), IsMajority S ∧ c ∈ S ∧
        ∀ v ∈ S, voteFor (initState 3) (((initState 3).node c).currentTerm) v =
          some c)) :=
  @C3_leader_uniqueness 3 (initState 3) (timeoutEff (initState 3) 0)
    Relation.ReflTransGen.refl

/-- C4: in every reachable state, entries at the same index with the same
term on two nodes carry the same command, and the entire prefixes up to and
including that index are identical (Raft log matching). -/
theorem C4_log_matching {n : Nat} {s : GState n} (hreach : Reachable s) :
    ∀ a b : Fin n, ∀ j ea eb, (s.node a).log.get? j = some ea →
      (s.node b).log.get? j = some eb → ea.term = eb.term →
      ea.command = eb.command ∧
        (s.node a).log.take (j + 1) = (s.node b).log.take (j + 1) := by
  have hInv := reachable_inv hreach
  intro a b j ea eb ha hb ht
  have htake := hInv.logMatch a b j ea eb ha hb ht
  have hget := get?_eq_of_take_eq htake (Nat.lt_succ_self j)
  rw [ha, hb] at hget
  have : ea = eb := Option.some.inj hget
  exact ⟨by rw [this], htake⟩

/-- C4 witness: evaluated at the one-node state where the term-1 leader has
appended a single entry, at index 0 on both sides. -/
theorem C4_log_matching_witness :
    ({ term := 1, command := { id := 1, sql := "c" } } : LogEntry).command =
      ({ term := 1, command := { id := 1, sql := "c" } } : LogEntry).command ∧
    ((clientRequestEff (becomeLeaderEff (timeoutEff (initState 1) 0) 0) 0
        { id := 1, sql := "c" }).node 0).log.take (0 + 1) =
      ((clientRequestEff (becomeLeaderEff (timeoutEff (initState 1) 0) 0) 0
        { id := 1, sql := "c" }).node 0).log.take (0 + 1) :=
  C4_log_matching
    (Relation.ReflTransGen.tail
      (Relation.ReflTransGen.tail
        (Relation.ReflTransGen.tail Relation.ReflTransGen.refl
          (Step.timeout 0 (by decide)))
        (Step.becomeLeader 0 {0} (by decide) (by decide) (by decide)
          (by decide)))
      (Step.clientRequest 0 { id := 1, sql := "c" } (by decide)))
    0 0 0 { term := 1, command := { id := 1, sql := "c" } }
    { term := 1, command := { id := 1, sql := "c" } }
    (by decide) (by decide) rfl

/-- C2: in every reachable state, two nodes whose apply pipelines have made
the same amount of progress have handed the identical sequence of committed
commands to their engines, so replaying against a fresh deterministic local
engine yields identical result sequences, identical engine states, and
byte-identical answers to any subsequent read. -/
theorem C2_replay_determinism {n : Nat} {s : GState n} (hreach : Reachable s)
    (σ : Type) (exec : σ → String → EngineResult × σ) (db : σ)
    (a b : Fin n) (hlen : (s.applied a).length = (s.applied b).length) :
    s.applied a = s.applied b ∧
    replayResults σ exec db (s.applied a) =
      replayResults σ exec db (s.applied b) ∧
    ∀ q, exec (replayDB σ exec db (s.applied a)) q =
      exec (replayDB σ exec db (s.applied b)) q := by
  have hInv := reachable_inv hreach
  have hpref : ∀ w : Fin n, s.applied w <+: committedLog s := by
    intro w
    rw [hInv.appliedDef w]
    have h1 : (s.node w).log.take ((s.node w).lastApplied) =
        (committedLog s).take ((s.node w).lastApplied) :=
      take_eq_of_take_eq (hInv.nodeCommit w).2.1 (hInv.appliedLe w)
    rw [h1]
    exact List.take_prefix _ _
  have heq : s.applied a = s.applied b := by
    rcases List.prefix_or_prefix_of_prefix (hpref a) (hpref b) with h | h
    · exact List.IsPrefix.eq_of_length h hlen
    · exact (List.IsPrefix.eq_of_length h hlen.symm).symm
  exact ⟨heq, by rw [heq], fun q => by rw [heq]⟩

/-- C2 witness: evaluated at the initial single-node state with a trivial
engine. -/
theorem C2_replay_determinism_witness :
    (initState 1).applied 0 = (initState 1).applied 0 ∧
    replayResults Unit (fun db _ => (EngineResult.rows [], db)) ()
        ((initState 1).applied 0) =
      replayResults Unit (fun db _ => (EngineResult.rows [], db)) ()
        ((initState 1).applied 0) ∧
    ∀ q, (fun (db : Unit) (_ : String) => (EngineResult.rows [], db))
        (replayDB Unit (fun db _ => (EngineResult.rows [], db)) ()
          ((initState 1).applied 0)) q =
      (fun (db : Unit) (_ : String) => (EngineResult.rows [], db))
        (replayDB Unit (fun db _ => (EngineResult.rows [], db)) ()
          ((initState 1).applied 0)) q :=
  C2_replay_determinism Relation.ReflTransGen.refl Unit
    (fun db _ => (EngineResult.rows [], db)) () 0 0 rfl

theorem append_log_eq {n : Nat} {s : GState n} (hInv : Inv s) {l f : Fin n}
    {p : Nat} (hp₁ : p ≤ (s.node f).log.length)
    (hp₂ : p ≤ (s.node l).log.length)
    (hprev : p = 0 ∨ ((s.node f).log.get? (p - 1)).map LogEntry.term =
      ((s.node l).log.get? (p - 1)).map LogEntry.term) :
    (s.node f).log.take p ++ (s.node l).log.drop p = (s.node l).log := by
  have htakep : (s.node f).log.take p = (s.node l).log.take p := by
    by_cases hp0 : p = 0
    · rw [hp0]
      simp
    · rcases hprev with h0 | hpe
      · exact absurd h0 hp0
      · obtain ⟨ea, hea⟩ : ∃ ea, (s.node f).log.get? (p - 1) = some ea :=
          ⟨_, List.get?_eq_get (by omega)⟩
        obtain ⟨eb, heb⟩ : ∃ eb, (s.node l).log.get? (p - 1) = some eb :=
          ⟨_, List.get?_eq_get (by omega)⟩
        rw [hea, heb] at hpe
        have hteq : ea.term = eb.term := by simpa using hpe
        have := hInv.logMatch f l (p - 1) ea eb hea heb hteq
        have hp1 : p - 1 + 1 = p := by omega
        rw [hp1] at this
        exact this
  rw [htakep]
  exact List.take_append_drop p _

theorem commit_prefix_in_leader {n : Nat} {s : GState n} (hInv : Inv s)
    {l f : Fin n} (hl : (s.node l).role = NodeRole.Leader)
    (hterm : (s.node f).currentTerm ≤ (s.node l).currentTerm) :
    (s.node l).log.take ((s.node f).commitIndex) =
      (s.node f).log.take ((s.node f).commitIndex) := by
  have hcovf : covered s (s.node l).log (s.node f).commitIndex := by
    refine hInv.leaderCovered l hl _ (hInv.nodeCommit f).1 ?_
    intro j hj
    exact le_trans (hInv.nodeCommitTag f j hj) hterm
  rw [hcovf.2, (hInv.nodeCommit f).2.1]

/-- C1: in every reachable state, each node's apply pipeline has consumed
exactly the prefix of its log up to `lastApplied` (each committed index once,
in strictly increasing order, no gaps, no duplicates), only committed
entries are consumed, the consumed sequence is a prefix of the global
committed log — hence identical across nodes up to progress — an apply step
is enabled whenever a committed entry is still pending, and each step hands
at most the single next committed entry to the engine. -/
theorem C1_apply_exactly_once {n : Nat} {s s' : GState n}
    (hreach : Reachable s) :
    (∀ a : Fin n, s.applied a = (s.node a).log.take ((s.node a).lastApplied)) ∧
    (∀ a : Fin n, (s.node a).lastApplied ≤ (s.node a).commitIndex) ∧
    (∀ a : Fin n, s.applied a <+: committedLog s) ∧
    (∀ a b : Fin n, s.applied a <+: s.applied b ∨
      s.applied b <+: s.applied a) ∧
    (∀ a : Fin n, (s.node a).lastApplied < (s.node a).commitIndex →
      Step s (applyEff s a)) ∧
    (Step s s' → ∀ a : Fin n, s'.applied a = s.applied a ∨
      ((s.node a).lastApplied < (s.node a).commitIndex ∧
        s'.applied a = s.applied a ++
          ((s.node a).log.get? ((s.node a).lastApplied)).toList)) := by
  have hInv := reachable_inv hreach
  have hpref : ∀ w : Fin n, s.applied w <+: committedLog s := by
    intro w
    rw [hInv.appliedDef w]
    have h1 : (s.node w).log.take ((s.node w).lastApplied) =
        (committedLog s).take ((s.node w).lastApplied) :=
      take_eq_of_take_eq (hInv.nodeCommit w).2.1 (hInv.appliedLe w)
    rw [h1]
    exact List.take_prefix _ _
  refine ⟨hInv.appliedDef, hInv.appliedLe, hpref, ?_, ?_, ?_⟩
  · intro a b
    exact List.prefix_or_prefix_of_prefix (hpref a) (hpref b)
  · intro a ha
    exact Step.applyCommitted a ha
  · intro hstep a
    cases hstep with
    | timeout v hrole => exact Or.inl rfl
    | grantVote v c hc hv hupd => exact Or.inl rfl
    | becomeLeader c S hc hmaj hself hvotes => exact Or.inl rfl
    | clientRequest l cmd hl => exact Or.inl rfl
    | appendEntries l f p hl hne hterm hnotld hp₁ hp₂ hprev => exact Or.inl rfl
    | advanceCommit l hl => exact Or.inl rfl
    | applyCommitted a' h =>
        by_cases ha : a = a'
        · right
          rw [ha]
          refine ⟨h, ?_⟩
          unfold applyEff
          simp
        · left
          unfold applyEff
          simp [Function.update_noteq ha]

/-- C1 witness: evaluated at the initial three-node state and the first
election timeout step. -/
theorem C1_apply_exactly_once_witness :
    ((∀ a : Fin 3, (initState 3).applied a =
      ((initState 3).node a).log.take (((initState 3).node a).lastApplied)) ∧
    (∀ a : Fin 3, ((initState 3).node a).lastApplied ≤
      ((initState 3).node a).commitIndex) ∧
    (∀ a : Fin 3, (initState 3).applied a <+: committedLog (initState 3)) ∧
    (∀ a b : Fin 3, (initState 3).applied a <+: (initState 3).applied b ∨
      (initState 3).applied b <+: (initState 3).applied a) ∧
    (∀ a : Fin 3, ((initState 3).node a).lastApplied <
        ((initState 3).node a).commitIndex →
      Step (initState 3) (applyEff (initState 3) a)) ∧
    (Step (initState 3) (timeoutEff (initState 3) 0) →
      ∀ a : Fin 3, (timeoutEff (initState 3) 0).applied a =
          (initState 3).applied a ∨
        (((initState 3).node a).lastApplied <
            ((initState 3).node a).commitIndex ∧
          (timeoutEff (initState 3) 0).applied a = (initState 3).applied a ++
            (((initState 3).node a).log.get?
              (((initState 3).node a).lastApplied)).toList))) :=
  @C1_apply_exactly_once 3 (initState 3) (timeoutEff (initState 3) 0)
    Relation.ReflTransGen.refl

/-- C7: along every protocol step from a reachable state, each node's
committed log prefix is preserved verbatim, the commit index never
decreases, the sequence already handed to the engine is never rewritten, and
a node's log changes only by appending or by the current leader (of at least
the node's term) overwriting its tail from some position onward. -/
theorem C7_append_only {n : Nat} {s s' : GState n} (hreach : Reachable s)
    (hstep : Step s s') :
    ∀ a : Fin n,
      ((s'.node a).log.take ((s.node a).commitIndex) =
        (s.node a).log.take ((s.node a).commitIndex)) ∧
      ((s.node a).commitIndex ≤ (s'.node a).commitIndex) ∧
      (s.applied a <+: s'.applied a) ∧
      ((s.node a).log <+: (s'.node a).log ∨
        ∃ l p, (s.node l).role = NodeRole.Leader ∧
          (s.node a).currentTerm ≤ (s.node l).currentTerm ∧
          (s'.node a).log = (s.node a).log.take p ++ (s.node l).log.drop p) := by
  have hInv := reachable_inv hreach
  intro a
  cases hstep with
  | timeout v hrole =>
      have hlog : ((timeoutEff s v).node a).log = (s.node a).log := by
        unfold timeoutEff
        by_cases ha : a = v <;>
          simp [Function.update_apply, ha]
      have hci : ((timeoutEff s v).node a).commitIndex =
          (s.node a).commitIndex := by
        unfold timeoutEff
        by_cases ha : a = v <;>
          simp [Function.update_apply, ha]
      rw [hlog, hci]
      exact ⟨rfl, le_refl _, List.prefix_refl _, Or.inl (List.prefix_refl _)⟩
  | grantVote v c hc hv hupd =>
      have hlog : ((grantVoteEff s v c).node a).log = (s.node a).log := by
        unfold grantVoteEff
        by_cases ha : a = v <;>
          simp [Function.update_apply, ha]
      have hci : ((grantVoteEff s v c).node a).commitIndex =
          (s.node a).commitIndex := by
        unfold grantVoteEff
        by_cases ha : a = v <;>
          simp [Function.update_apply, ha]
      rw [hlog, hci]
      exact ⟨rfl, le_refl _, List.prefix_refl _, Or.inl (List.prefix_refl _)⟩
  | becomeLeader c S hc hmaj hself hvotes =>
      have hlog : ((becomeLeaderEff s c).node a).log = (s.node a).log := by
        unfold becomeLeaderEff
        by_cases ha : a = c <;>
          simp [Function.update_apply, ha]
      have hci : ((becomeLeaderEff s c).node a).commitIndex =
          (s.node a).commitIndex := by
        unfold becomeLeaderEff
        by_cases ha : a = c <;>
          simp [Function.update_apply, ha]
      rw [hlog, hci]
      exact ⟨rfl, le_refl _, List.prefix_refl _, Or.inl (List.prefix_refl _)⟩
  | clientRequest l cmd hl =>
      have hci : ((clientRequestEff s l cmd).node a).commitIndex =
          (s.node a).commitIndex := by
        unfold clientRequestEff
        by_cases ha : a = l <;>
          simp [Function.update_apply, ha]
      by_cases ha : a = l
      · have hlog : ((clientRequestEff s l cmd).node a).log =
            (s.node a).log ++
              [{ term := (s.node l).currentTerm, command := cmd }] := by
          unfold clientRequestEff
          simp [Function.update_apply, ha]
        rw [hlog, hci]
        refine ⟨?_, le_refl _, List.prefix_refl _,
          Or.inl (List.prefix_append _ _)⟩
        exact List.take_append_of_le_length (hInv.nodeCommit a).2.2
      · have hlog : ((clientRequestEff s l cmd).node a).log =
            (s.node a).log := by
          unfold clientRequestEff
          simp [Function.update_apply, ha]
        rw [hlog, hci]
        exact ⟨rfl, le_refl _, List.prefix_refl _, Or.inl (List.prefix_refl _)⟩
  | appendEntries l f p hl hne hterm hnotld hp₁ hp₂ hprev =>
      by_cases ha : a = f
      · have hnew := append_log_eq hInv hp₁ hp₂ hprev
        have hlog : ((appendEntriesEff s l f p).node a).log =
            (s.node f).log.take p ++ (s.node l).log.drop p := by
          unfold appendEntriesEff
          simp [Function.update_apply, ha]
        have hci : ((appendEntriesEff s l f p).node a).commitIndex =
            max (s.node f).commitIndex
              (min (s.node l).commitIndex
                ((s.node f).log.take p ++ (s.node l).log.drop p).length) := by
          unfold appendEntriesEff
          simp [Function.update_apply, ha]
        refine ⟨?_, ?_, ?_, ?_⟩
        · rw [hlog, hnew, ha]
          exact take_eq_of_take_eq
            (commit_prefix_in_leader hInv hl hterm) (le_refl _)
        · rw [hci, ha]
          exact le_max_left _ _
        · have happ : (appendEntriesEff s l f p).applied a = s.applied a := rfl
          rw [happ]
        · right
          exact ⟨l, p, hl, by rw [ha]; exact hterm, by rw [hlog, ha]⟩
      · have hlog : ((appendEntriesEff s l f p).node a).log =
            (s.node a).log := by
          unfold appendEntriesEff
          simp [Function.update_apply, ha]
        have hci : ((appendEntriesEff s l f p).node a).commitIndex =
            (s.node a).commitIndex := by
          unfold appendEntriesEff
          simp [Function.update_apply, ha]
        rw [hlog, hci]
        exact ⟨rfl, le_refl _, List.prefix_refl _, Or.inl (List.prefix_refl _)⟩
  | advanceCommit l hl =>
      have hlog : ((advanceCommitEff s l).node a).log = (s.node a).log := by
        unfold advanceCommitEff
        by_cases ha : a = l <;>
          simp [Function.update_apply, ha]
      have hci : (s.node a).commitIndex ≤
          ((advanceCommitEff s l).node a).commitIndex := by
        unfold advanceCommitEff
        by_cases ha : a = l <;>
          simp [Function.update_apply, ha]
      rw [hlog]
      exact ⟨rfl, hci, List.prefix_refl _, Or.inl (List.prefix_refl _)⟩
  | applyCommitted a' h =>
      have hlog : ((applyEff s a').node a).log = (s.node a).log := by
        unfold applyEff
        by_cases ha : a = a' <;>
          simp [Function.update_apply, ha]
      have hci : ((applyEff s a').node a).commitIndex =
          (s.node a).commitIndex := by
        unfold applyEff
        by_cases ha : a = a' <;>
          simp [Function.update_apply, ha]
      have happ : s.applied a <+: (applyEff s a').applied a := by
        unfold applyEff
        by_cases ha : a = a'
        · simp [Function.update_apply, ha]
        · simp [Function.update_apply, ha]
      rw [hlog, hci]
      exact ⟨rfl, le_refl _, happ, Or.inl (List.prefix_refl _)⟩

/-- C7 witness: evaluated at the initial three-node state and the first
election timeout step. -/
theorem C7_append_only_witness :
    (((timeoutEff (initState 3) 0).node 0).log.take
        (((initState 3).node 0).commitIndex) =
      ((initState 3).node 0).log.take (((initState 3).node 0).commitIndex)) ∧
    (((initState 3).node 0).commitIndex ≤
      ((timeoutEff (initState 3) 0).node 0).commitIndex) ∧
    ((initState 3).applied 0 <+: (timeoutEff (initState 3) 0).applied 0) ∧
    (((initState 3).node 0).log <+: ((timeoutEff (initState 3) 0).node 0).log ∨
      ∃ l p, ((initState 3).node l).role = NodeRole.Leader ∧
        ((initState 3).node 0).currentTerm ≤
          ((initState 3).node l).currentTerm ∧
        ((timeoutEff (initState 3) 0).node 0).log =
          ((initState 3).node 0).log.take p ++
            ((initState 3).node l).log.drop p) :=
  C7_append_only Relation.ReflTransGen.refl
    (Step.timeout 0 (by decide)) 0

theorem ackedOK_le_length {n : Nat} {s : GState n} {l : Fin n} {k : Nat}
    (h : ackedOK s l k) : k ≤ (s.node l).log.length := by
  by_contra hgt
  push_neg at hgt
  have hempty : ackers s l k = ∅ := by
    apply Finset.eq_empty_of_forall_not_mem
    intro v hv
    have hv' := Finset.mem_filter.mp hv
    have hlen : ((s.node v).log.take k).length = k := by
      rw [List.length_take]
      omega
    have hlen' : ((s.node l).log.take k).length = (s.node l).log.length := by
      rw [List.length_take]
      omega
    have := congrArg List.length hv'.2.2.2
    omega
  have hmaj := h.1
  rw [hempty] at hmaj
  unfold IsMajority at hmaj
  simp at hmaj

/-- C6 counterexample: in the reachable state `cexState`, node 1 is the
term-2 leader; its single entry is persisted in-log by a strict majority
(nodes 0 and 1) at the leader's term, so the highest acknowledged index is
1, yet the commit step leaves the commit index at 0 — the entry carries
term 1, not the leader's current term, so the literal "advances exactly to
the highest acknowledged index" is false of the protocol. -/
theorem C6_counterexample :
    Reachable cexState ∧
    (cexState.node 1).role = NodeRole.Leader ∧
    highestAcked cexState 1 = 1 ∧
    maxCommittable cexState 1 = 0 ∧
    ((advanceCommitEff cexState 1).node 1).commitIndex = 0 := by
  refine ⟨?_, by decide, by decide, by decide, by decide⟩
  have r1 : Reachable (timeoutEff (initState 3) 0) :=
    Relation.ReflTransGen.tail Relation.ReflTransGen.refl
      (Step.timeout 0 (by decide))
  have r2 : Reachable (grantVoteEff (timeoutEff (initState 3) 0) 1 0) :=
    Relation.ReflTransGen.tail r1
      (Step.grantVote 1 0 (by decide) (by decide) (by decide))
  have r3 : Reachable (becomeLeaderEff
      (grantVoteEff (timeoutEff (initState 3) 0) 1 0) 0) :=
    Relation.ReflTransGen.tail r2
      (Step.becomeLeader 0 {0, 1} (by decide) (by decide) (by decide)
        (by decide))
  have r4 : Reachable (clientRequestEff
      (becomeLeaderEff (grantVoteEff (timeoutEff (initState 3) 0) 1 0) 0)
      0 { id := 1, sql := "c" }) :=
    Relation.ReflTransGen.tail r3
      (Step.clientRequest 0 { id := 1, sql := "c" } (by decide))
  have r5 : Reachable (appendEntriesEff
      (clientRequestEff
        (becomeLeaderEff (grantVoteEff (timeoutEff (initState 3) 0) 1 0) 0)
        0 { id := 1, sql := "c" })
      0 1 0) :=
    Relation.ReflTransGen.tail r4
      (Step.appendEntries 0 1 0 (by decide) (by decide) (by decide)
        (by decide) (by decide) (by decide) (by decide))
  have r6 : Reachable (appendEntriesEff
      (appendEntriesEff
        (clientRequestEff
          (becomeLeaderEff (grantVoteEff (timeoutEff (initState 3) 0) 1 0) 0)
          0 { id := 1, sql := "c" })
        0 1 0)
      0 2 0) :=
    Relation.ReflTransGen.tail r5
      (Step.appendEntries 0 2 0 (by decide) (by decide) (by decide)
        (by decide) (by decide) (by decide) (by decide))
  have r7 : Reachable (timeoutEff
      (appendEntriesEff
        (appendEntriesEff
          (clientRequestEff
            (becomeLeaderEff (grantVoteEff (timeoutEff (initState 3) 0) 1 0)
              0)
            0 { id := 1, sql := "c" })
          0 1 0)
        0 2 0)
      1) :=
    Relation.ReflTransGen.tail r6 (Step.timeout 1 (by decide))
  have r8 : Reachable (grantVoteEff
      (timeoutEff
        (appendEntriesEff
          (appendEntriesEff
            (clientRequestEff
              (becomeLeaderEff
                (grantVoteEff (timeoutEff (initState 3) 0) 1 0) 0)
              0 { id := 1, sql := "c" })
            0 1 0)
          0 2 0)
        1)
      0 1) :=
    Relation.ReflTransGen.tail r7
      (Step.grantVote 0 1 (by decide) (by decide) (by decide))
  have r9 : Reachable (becomeLeaderEff
      (grantVoteEff
        (timeoutEff
          (appendEntriesEff
            (appendEntriesEff
              (clientRequestEff
                (becomeLeaderEff
                  (grantVoteEff (timeoutEff (initState 3) 0) 1 0) 0)
                0 { id := 1, sql := "c" })
              0 1 0)
            0 2 0)
          1)
        0 1)
      1) :=
    Relation.ReflTransGen.tail r8
      (Step.becomeLeader 1 {0, 1} (by decide) (by decide) (by decide)
        (by decide))
  unfold cexState
  exact r9

/-- C6 (amended): from any reachable state, the leader's commit step is
enabled and advances its commit index to the maximum of its old value and
the highest log index `k` persisted in-log by a strict majority at the
leader's term AND whose last covered entry carries the leader's current
term (the standard Raft commit rule); `maxCommittable` is the greatest such
index.  Only entries at or below a node's commit index — all of them
committed — are ever handed to the apply pipeline. -/
theorem C6_commit_advancement {n : Nat} {s : GState n} (hreach : Reachable s)
    (l : Fin n) (hl : (s.node l).role = NodeRole.Leader) :
    Step s (advanceCommitEff s l) ∧
    (∀ k, ackedOK s l k → k ≤ maxCommittable s l) ∧
    (maxCommittable s l = 0 ∨ ackedOK s l (maxCommittable s l)) ∧
    ((advanceCommitEff s l).node l).commitIndex =
      max (s.node l).commitIndex (maxCommittable s l) ∧
    (∀ a : Fin n, (s.node a).lastApplied ≤ (s.node a).commitIndex ∧
      s.applied a = (s.node a).log.take ((s.node a).lastApplied) ∧
      (s.node a).commitIndex ≤ s.committed.length ∧
      (s.node a).log.take ((s.node a).commitIndex) =
        (committedLog s).take ((s.node a).commitIndex)) := by
  have hInv := reachable_inv hreach
  have hspec := foldl_greatest (fun k => ackedOK s l k)
    ((s.node l).log.length + 1)
  have hgr : ∀ k, k < (s.node l).log.length + 1 → ackedOK s l k →
      k ≤ maxCommittable s l := by
    unfold maxCommittable
    exact hspec.2
  refine ⟨Step.advanceCommit l hl, ?_, ?_, ?_, ?_⟩
  · intro k hk
    exact hgr k (by have := ackedOK_le_length hk; omega) hk
  · rcases hspec.1 with h0 | hOK
    · left
      unfold maxCommittable
      exact h0
    · right
      have : maxCommittable s l =
          (List.range ((s.node l).log.length + 1)).foldl
            (fun acc k => if ackedOK s l k then k else acc) 0 := by
        unfold maxCommittable
        rfl
      rw [this]
      exact hOK.1
  · unfold advanceCommitEff
    simp
  · intro a
    exact ⟨hInv.appliedLe a, hInv.appliedDef a, (hInv.nodeCommit a).1,
      (hInv.nodeCommit a).2.1⟩

/-- C6 witness: evaluated at the one-node state where node 0 has just won
term 1 with an empty log. -/
theorem C6_commit_advancement_witness :
    Step (becomeLeaderEff (timeoutEff (initState 1) 0) 0)
      (advanceCommitEff (becomeLeaderEff (timeoutEff (initState 1) 0) 0) 0) ∧
    (∀ k, ackedOK (becomeLeaderEff (timeoutEff (initState 1) 0) 0) 0 k →
      k ≤ maxCommittable (becomeLeaderEff (timeoutEff (initState 1) 0) 0) 0) ∧
    (maxCommittable (becomeLeaderEff (timeoutEff (initState 1) 0) 0) 0 = 0 ∨
      ackedOK (becomeLeaderEff (timeoutEff (initState 1) 0) 0) 0
        (maxCommittable (becomeLeaderEff (timeoutEff (initState 1) 0) 0) 0)) ∧
    ((advanceCommitEff (becomeLeaderEff (timeoutEff (initState 1) 0) 0)
        0).node 0).commitIndex =
      max ((becomeLeaderEff (timeoutEff (initState 1) 0) 0).node
        0).commitIndex
        (maxCommittable (becomeLeaderEff (timeoutEff (initState 1) 0) 0) 0) ∧
    (∀ a : Fin 1,
      ((becomeLeaderEff (timeoutEff (initState 1) 0) 0).node a).lastApplied ≤
        ((becomeLeaderEff (timeoutEff (initState 1) 0) 0).node
          a).commitIndex ∧
      (becomeLeaderEff (timeoutEff (initState 1) 0) 0).applied a =
        ((becomeLeaderEff (timeoutEff (initState 1) 0) 0).node a).log.take
          (((becomeLeaderEff (timeoutEff (initState 1) 0) 0).node
            a).lastApplied) ∧
      ((becomeLeaderEff (timeoutEff (initState 1) 0) 0).node a).commitIndex ≤
        (becomeLeaderEff (timeoutEff (initState 1) 0) 0).committed.length ∧
      ((becomeLeaderEff (timeoutEff (initState 1) 0) 0).node a).log.take
        (((becomeLeaderEff (timeoutEff (initState 1) 0) 0).node
          a).commitIndex) =
        (committedLog (becomeLeaderEff (timeoutEff (initState 1) 0) 0)).take
          (((becomeLeaderEff (timeoutEff (initState 1) 0) 0).node
            a).commitIndex)) :=
  C6_commit_advancement
    (Relation.ReflTransGen.tail
      (Relation.ReflTransGen.tail Relation.ReflTransGen.refl
        (Step.timeout 0 (by decide)))
      (Step.becomeLeader 0 {0} (by decide) (by decide) (by decide)
        (by decide)))
    0 (by decide)

end ChiselStore
